import Mathlib

/-!
# Verification of the behavior-tree editing engine (social-norms-trees)

Shallow embedding of the core of the `social-norms-trees` repository:

* `serialize_tree` / `deserialize_tree` and the `BehaviorLibrary`
  (`src/social_norms_trees/serialize_tree.py`,
   `src/social_norms_trees/behavior_library.py`);
* the node/insertion-point enumerations
  (`iterate_nodes`, `enumerate_nodes`, `get_node_mapping`,
   `_build_tree_with_insertion_points`, `get_insert_mapping`);
* the four atomic mutations (`remove`, `insert`, `move`, `exchange`)
  of `src/social_norms_trees/atomic_mutations.py`, modelled over an
  explicit arena/heap of nodes so that the in-place pointer mutations of
  the Python original (including partially-mutated error states and the
  cyclic structures an unchecked `move` can create) are represented
  faithfully.

The `py_trees` primitives (`Composite.insert_child`, `Composite.remove_child`,
the `parent` back-reference) are an external dependency whose source is not
part of the repository; where their behaviour matters they are modelled from
the specification, and each such definition is marked `Modelled from the
spec:` in its doc comment.
-/

namespace SocialNormsTrees

/-! ## Serialization data model

`PyTree` models the Python objects fed to `serialize_tree`: each node has its
class name (`tree.__class__.__name__`), a `name`, optional `display_name` and
`id_` attributes (present exactly on the `CustomBehavior` / `CustomSequence`
classes of `custom_node_library.py`), and a (possibly empty) children list. -/

inductive PyTree where
  | mk (cls : String) (name : String) (display_name : Option String)
       (id_ : Option String) (children : List PyTree)

def PyTree.cls : PyTree → String
  | .mk c _ _ _ _ => c

def PyTree.name : PyTree → String
  | .mk _ n _ _ _ => n

def PyTree.display_name : PyTree → Option String
  | .mk _ _ d _ _ => d

def PyTree.id_ : PyTree → Option String
  | .mk _ _ _ i _ => i

def PyTree.children : PyTree → List PyTree
  | .mk _ _ _ _ cs => cs

/-- A JSON document node as produced by `serialize_tree` and consumed by
`deserialize_tree`: the keys `type` and `name` are always present, the keys
`display_name`, `id_` and `children` are optional (`Option`). -/
inductive Doc where
  | mk (type_ : String) (name : String) (display_name : Option String)
       (id_ : Option String) (children : Option (List Doc))

def Doc.type_ : Doc → String
  | .mk t _ _ _ _ => t

def Doc.name : Doc → String
  | .mk _ n _ _ _ => n

def Doc.children : Doc → Option (List Doc)
  | .mk _ _ _ _ cs => cs

/-! ## `serialize_tree`

Mirrors `serialize_tree(tree, include_children=True)`: emits
`type = tree.__class__.__name__` and `name`; `display_name` / `id_` exactly
when the attribute is present (`hasattr`); `children` only when
`include_children` holds and the children list is non-empty.  Recursive calls
use the default `include_children=True`. -/

mutual

def serializeNode (t : PyTree) (include_children : Bool) : Doc :=
  match t with
  | .mk cls name dn id cs =>
      Doc.mk cls name dn id
        (if include_children && !cs.isEmpty then some (serializeList cs) else none)

def serializeList : List PyTree → List Doc
  | [] => []
  | c :: cs => serializeNode c true :: serializeList cs

end

def serialize_tree (t : PyTree) (include_children : Bool := true) : Doc :=
  serializeNode t include_children

/-! ## `BehaviorLibrary`

The library is a list of behavior descriptions; `deserialize_tree` reads the
fields `name`, `id` and (for indexing) `display_name` of each entry.  The
index `behavior_from_display_name` is a Python dict comprehension, so a later
entry with the same display name overwrites an earlier one (last wins). -/

structure BehaviorEntry where
  name : String
  id : String
  display_name : String
deriving Repr, DecidableEq

def behavior_from_display_name (lib : List BehaviorEntry) (key : String) :
    Option BehaviorEntry :=
  lib.reverse.find? (fun b => b.display_name == key)

/-! ## `deserialize_tree` -/

/-- The node objects built by `deserialize_tree`: `CustomSequence` and
`CustomBehavior` instances, plus `noneNode` for the value `None` that the
Python function implicitly returns on the unimplemented `"Selector"` branch. -/
inductive DNode where
  | seq (name : String) (id_ : String) (display_name : String)
        (children : List DNode)
  | beh (name : String) (id_ : String) (display_name : String)
  | noneNode

/-- The exceptions `deserialize_tree` can raise. -/
inductive DErr where
  /-- `AssertionError`: `node_type` is not one of `Sequence`/`Selector`/`Behavior`. -/
  | invalidType (type_ : String) (name : String)
  /-- `KeyError` from a Python dict subscript (missing display name in the
  library index, or a `"Sequence"` document without a `children` key). -/
  | keyError (key : String)
  /-- `AssertionError`: a `"Behavior"` document node carries children. -/
  | behaviorChildren (name : String)
deriving Repr, DecidableEq

mutual

/-- Mirrors the inner `deserialize_node` of `deserialize_tree`.  The two
leading `assert type(node["type"] == str)` / `assert type(node["name"] == str)`
statements of the original are vacuous (they assert that a `bool` object is
truthy) and are therefore not modelled.  The real checks, in source order:
the `node_type` membership assertion, the library-index subscript
(`behavior_library.behavior_from_display_name[node["name"]]`, a `KeyError`
when absent — so the dead `raise ValueError` branches are never reached),
then the per-kind construction. -/
def deserialize_node (lib : List BehaviorEntry) (d : Doc) : Except DErr DNode :=
  match d with
  | .mk type_ name _ _ children =>
      if type_ = "Sequence" ∨ type_ = "Selector" ∨ type_ = "Behavior" then
        match behavior_from_display_name lib name with
        | none => .error (.keyError name)
        | some b =>
            if type_ = "Sequence" then
              match children with
              | none => .error (.keyError "children")
              | some cds => do
                  let cs ← deserialize_nodeList lib cds
                  .ok (.seq b.name b.id b.name cs)
            else if type_ = "Behavior" then
              match children with
              | some (_ :: _) => .error (.behaviorChildren name)
              | _ => .ok (.beh b.name b.id b.name)
            else
              -- the "Selector" branch is not implemented: Python falls
              -- through and returns None
              .ok .noneNode
      else .error (.invalidType type_ name)

def deserialize_nodeList (lib : List BehaviorEntry) :
    List Doc → Except DErr (List DNode)
  | [] => .ok []
  | d :: ds => do
      let n ← deserialize_node lib d
      let ns ← deserialize_nodeList lib ds
      .ok (n :: ns)

end

def deserialize_tree (d : Doc) (lib : List BehaviorEntry) : Except DErr DNode :=
  deserialize_node lib d

/-! ## Tree model for the addressing traversals

`BTree` models a `py_trees` behaviour/composite for the enumeration
functions of `atomic_mutations.py`: `leaf` is a plain behaviour (its
`children` list is empty), `comp` is a `Composite`
(`isinstance(node, py_trees.composites.Composite)`). -/

inductive BTree where
  | leaf (name : String)
  | comp (name : String) (children : List BTree)

def BTree.children : BTree → List BTree
  | .leaf _ => []
  | .comp _ cs => cs

mutual

/-- `iterate_nodes(tree)`: yield the node itself, then recursively all nodes
of each child, in order (depth-first pre-order). -/
def iterate_nodes : BTree → List BTree
  | .leaf n => [.leaf n]
  | .comp n cs => .comp n cs :: iterate_list cs

def iterate_list : List BTree → List BTree
  | [] => []
  | c :: cs => iterate_nodes c ++ iterate_list cs

end

/-- `enumerate_nodes(tree) = enumerate(iterate_nodes(tree))`. -/
def enumerate_nodes (t : BTree) : List (Nat × BTree) :=
  (iterate_nodes t).enum

/-- The `mapping` component of `get_node_mapping`:
`{str(i): n for i, n in enumerate_nodes(tree)}` (an insertion-ordered dict,
modelled as an association list). -/
def get_node_mapping (t : BTree) : List (String × BTree) :=
  (enumerate_nodes t).map (fun p => (toString p.1, p.2))

mutual

/-- Total node count of a tree (the spec's `total_node_count`). -/
def total_node_count : BTree → Nat
  | .leaf _ => 1
  | .comp _ cs => 1 + total_count_list cs

def total_count_list : List BTree → Nat
  | [] => 0
  | c :: cs => total_node_count c + total_count_list cs

end

/-- Positions in a tree, as child-index paths from the root; the node at
path `p ++ [j]` is child `j` of the node at path `p`.  Paths play the role
of Python object identity: two distinct nodes of a proper tree are distinct
objects and have distinct paths. -/
def subtreeAt : BTree → List Nat → Option BTree
  | t, [] => some t
  | .leaf _, _ :: _ => none
  | .comp _ cs, j :: p =>
      match cs[j]? with
      | some c => subtreeAt c p
      | none => none

mutual

/-- The paths of all nodes in depth-first pre-order (the visitation order of
`iterate_nodes`). -/
def preorderPaths : BTree → List (List Nat)
  | .leaf _ => [[]]
  | .comp _ cs => [] :: preorderPathsKids 0 cs

def preorderPathsKids : Nat → List BTree → List (List Nat)
  | _, [] => []
  | j, c :: cs =>
      (preorderPaths c).map (fun p => j :: p) ++ preorderPathsKids (j + 1) cs

end

/-! ## Insertion-point enumeration

`_build_tree_with_insertion_points(node, state, level)` walks the tree and
appends insertion-point labels to `state.index_mapping`; label `i` is
`str(len(state.index_mapping))` at creation time, so the state is modelled
as the ordered list of the *owners* of the insertion points (label `i` owns
position `i` of that list).  Owners are node paths (Python: object
references).  The original compares `child == node.children[-1]` to detect
the last child; under the ownership invariant a node object occurs at most
once in a children list, so this is modelled by comparing child indices. -/

mutual

/-- Owners emitted by `_build_tree_with_insertion_points(node, state, level)`
for the subtree `t` at path `selfPath`; `parentPath = none` iff `level == 0`
(the root call).  Source order:
1. if `level != 0`, one insertion point owned by `node.parent`;
2. the node's own display line (emits nothing);
3. if `node.children` is empty, one insertion point owned by `node` itself;
4. otherwise, per child: a composite child recurses (its step 1 emits the
   point owned by `node` standing before it), a leaf child first emits a
   point owned by `node`, and after the last child one more point owned by
   `node` is emitted. -/
def buildIPOwners : BTree → List Nat → Option (List Nat) → List (List Nat)
  | t, selfPath, parentPath =>
      (match parentPath with
       | some pp => [pp]
       | none => []) ++
      (match t with
       | .leaf _ => [selfPath]
       | .comp _ [] => [selfPath]
       | .comp _ (c :: cs) => buildIPKids (c :: cs) 0 cs.length selfPath)

def buildIPKids : List BTree → Nat → Nat → List Nat → List (List Nat)
  | [], _, _, _ => []
  | c :: rest, j, lastIdx, selfPath =>
      (match c with
       | .comp n cs => buildIPOwners (.comp n cs) (selfPath ++ [j]) (some selfPath)
       | .leaf _ => [selfPath]) ++
      (if j = lastIdx then [selfPath] else []) ++
      buildIPKids rest (j + 1) lastIdx selfPath

end

/-- The owner list of `get_insert_mapping(tree)` (the values of
`state.index_mapping`, in label order). -/
def insertOwners (t : BTree) : List (List Nat) :=
  buildIPOwners t [] none

/-- The index component of `get_insert_mapping`: label `i` maps to
`(owner, position of label i in parent_child_mapping[owner])`; since labels
are appended in creation order, that position is the number of earlier
labels with the same owner. -/
def ipIndex (owners : List (List Nat)) (i : Nat) (p : List Nat) : Nat :=
  ((owners.take i).filter (fun q => q = p)).length

mutual

/-- Verification-side restatement of the owner sequence emitted by
`_build_tree_with_insertion_points` for a subtree at path `sp` (root call,
i.e. no leading parent-owned point): proven equal to `buildIPOwners` in
`buildIP_eq_bodySpec`; its cleaner recursion drives the counting proofs. -/
def bodySpec : BTree → List Nat → List (List Nat)
  | .leaf _, sp => [sp]
  | .comp _ [], sp => [sp]
  | .comp _ (c :: rest), sp => kidsSpec (c :: rest) 0 sp ++ [sp]

def kidsSpec : List BTree → Nat → List Nat → List (List Nat)
  | [], _, _ => []
  | c :: rest, j, sp =>
      [sp] ++
      (match c with
       | .comp nm cs2 => bodySpec (.comp nm cs2) (sp ++ [j])
       | .leaf _ => []) ++
      kidsSpec rest (j + 1) sp

end

/-- Expected number of insertion-point labels owned by the node at position
`q` of a tree whose root is handled by the root call: `n + 1` for a
composite with `n` children, `0` for a (non-root) leaf. -/
def ipCountAux (t : BTree) (q : List Nat) : Nat :=
  match subtreeAt t q with
  | some (.comp _ cs) => cs.length + 1
  | some (.leaf _) => 0
  | none => 0

/-! ## Heap model of the atomic mutations

The atomic mutations of `atomic_mutations.py` mutate `py_trees` node objects
in place through `parent` back-references and `children` lists.  They are
modelled over an explicit arena: a heap is a list of nodes, a node id is an
index into that list, and `parent` / `children` hold ids.  This represents
faithfully the partially-mutated states visible when an exception escapes,
and the detached or cyclic object groups an unchecked `move` can create. -/

inductive NKind where
  | composite
  | leaf
deriving DecidableEq, Repr

structure HNode where
  kind : NKind
  name : String
  parent : Option Nat
  children : List Nat
deriving DecidableEq, Repr

abbrev Heap := List HNode

def getNode (h : Heap) (n : Nat) : Option HNode := h[n]?

/-- Overwrite one field group of node `n` (no-op on a dangling id, which the
Python object model cannot produce). -/
def updNode (h : Heap) (n : Nat) (f : HNode → HNode) : Heap :=
  match h[n]? with
  | some nd => h.set n (f nd)
  | none => h

def setChildren (h : Heap) (n : Nat) (cs : List Nat) : Heap :=
  updNode h n (fun nd => { nd with children := cs })

def setParent (h : Heap) (n : Nat) (p : Option Nat) : Heap :=
  updNode h n (fun nd => { nd with parent := p })

/-- The exceptions the atomic mutations can raise.  An operation returns
`Except (MError × Heap) _`: a raised exception leaves the in-place mutations
performed so far visible to the caller, so the error carries the heap at
raise time. -/
inductive MError where
  /-- `remove`: `ValueError` — "parent is None, so we can't remove it". -/
  | valueErrorRoot
  /-- `remove`: `NotImplementedError` — parent is not a Composite. -/
  | notImplementedError
  /-- `insert`: index outside `[0, len(children)]`.  Modelled from the spec:
  "`index` must satisfy `0 ≤ index ≤ len(target_composite.children)`;
  out-of-range fails with a bounds error". -/
  | boundsError
  /-- `insert`: the target of `insert_child` is not a Composite. -/
  | notComposite
  /-- `exchange`: `AttributeError` — `node.parent` is `None`, so
  `node.parent.children` fails. -/
  | attributeError
  /-- `exchange`: `ValueError` from `list.index` — node not among its
  parent's children (impossible under the invariants). -/
  | valueErrorIndex
  /-- A dangling node id (the Python object model cannot produce this). -/
  | invalidRef
deriving DecidableEq, Repr

/-- `remove(node)`: fail with `ValueError` if `node.parent is None`; if the
parent is a Composite, detach (`parent.remove_child(node)`); otherwise raise
`NotImplementedError`.  Returns the now-detached node.

`Composite.remove_child` is `py_trees` code, modelled from the spec:
"detaches `node` from `node.parent.children` and clears its parent
back-reference" — remove the (unique) occurrence from the children list and
set `node.parent` to `none`. -/
def removeOp (h : Heap) (node : Nat) : Except (MError × Heap) (Heap × Nat) :=
  match getNode h node with
  | none => .error (.invalidRef, h)
  | some nd =>
      match nd.parent with
      | none => .error (.valueErrorRoot, h)
      | some p =>
          match getNode h p with
          | none => .error (.invalidRef, h)
          | some pn =>
              if pn.kind = .composite then
                .ok (setParent (setChildren h p (pn.children.erase node)) node none,
                     node)
              else .error (.notImplementedError, h)

/-- `insert(node, (parent, index))` = `parent.insert_child(node, index)`.

`Composite.insert_child` is `py_trees` code, modelled from the spec:
the target must be a Composite, "`index` must satisfy
`0 ≤ index ≤ len(target_composite.children)`; out-of-range fails with a
bounds error", the child is spliced in at `index` shifting later children
right, and then "sets `node.parent = target_composite`". -/
def insertOp (h : Heap) (node : Nat) (parent : Nat) (index : Nat) :
    Except (MError × Heap) Heap :=
  match getNode h node with
  | none => .error (.invalidRef, h)
  | some _ =>
      match getNode h parent with
      | none => .error (.invalidRef, h)
      | some pn =>
          if pn.kind = .composite then
            if index ≤ pn.children.length then
              .ok (setParent (setChildren h parent (pn.children.insertIdx index node))
                    node (some parent))
            else .error (.boundsError, h)
          else .error (.notComposite, h)

/-- `move(node, where) = insert(remove(node), where)`: the `remove` half runs
first; an exception from either half propagates with the heap as mutated so
far. -/
def moveOp (h : Heap) (node : Nat) (parent : Nat) (index : Nat) :
    Except (MError × Heap) Heap :=
  match removeOp h node with
  | .error e => .error e
  | .ok (h1, n) => insertOp h1 n parent index

/-- `exchange(node0, node1)`: capture `(parent, index)` of both nodes before
any change — `node.parent.children.index(node)` raises `AttributeError` when
`node.parent` is `None`, and `list.index` raises `ValueError` when the node
is absent — then `move(node0, (node1_parent, node1_index))` followed by
`move(node1, (node0_parent, node0_index))`. -/
def exchangeOp (h : Heap) (node0 node1 : Nat) : Except (MError × Heap) Heap :=
  match getNode h node0 with
  | none => .error (.invalidRef, h)
  | some n0 =>
      match n0.parent with
      | none => .error (.attributeError, h)
      | some p0 =>
          match getNode h p0 with
          | none => .error (.invalidRef, h)
          | some pn0 =>
              match pn0.children.indexOf? node0 with
              | none => .error (.valueErrorIndex, h)
              | some i0 =>
                  match getNode h node1 with
                  | none => .error (.invalidRef, h)
                  | some n1 =>
                      match n1.parent with
                      | none => .error (.attributeError, h)
                      | some p1 =>
                          match getNode h p1 with
                          | none => .error (.invalidRef, h)
                          | some pn1 =>
                              match pn1.children.indexOf? node1 with
                              | none => .error (.valueErrorIndex, h)
                              | some i1 =>
                                  match moveOp h node0 p1 i1 with
                                  | .error e => .error e
                                  | .ok h1 => moveOp h1 node1 p0 i0

/-! ## Structural invariants

A spanning tree certifies the four invariants of the spec for the part of
the heap reachable from the root: `ITree` is a bare tree of ids, `spans`
checks that the heap realises it (parent back-references consistent with
containment, leaves childless), and `Nodup` of the id list says every node
is reachable exactly once (no sharing, no cycles). -/

inductive ITree where
  | node (id : Nat) (children : List ITree)

def ITree.id : ITree → Nat
  | .node i _ => i

def ITree.kids : ITree → List ITree
  | .node _ cs => cs

mutual

def ITree.ids : ITree → List Nat
  | .node i cs => i :: idsList cs

def idsList : List ITree → List Nat
  | [] => []
  | t :: ts => t.ids ++ idsList ts

end

mutual

/-- `spans h p t`: the heap `h` realises the tree `t`, whose root node has
parent back-reference `p`: each tree node's heap entry has exactly the
tree's children (in order) and the tree parent as back-reference, and leaf
nodes have no children. -/
def spans (h : Heap) (p : Option Nat) : ITree → Bool
  | .node i cs =>
      match getNode h i with
      | none => false
      | some nd =>
          nd.parent == p && nd.children == List.map ITree.id cs &&
          (nd.kind == NKind.composite || cs.isEmpty) &&
          spansList h i cs

def spansList (h : Heap) (i : Nat) : List ITree → Bool
  | [] => true
  | c :: cs => spans h (some i) c && spansList h i cs

end

/-- The four structural invariants for the tree rooted at `root`, certified
by the spanning tree `t`:
1. the root is parentless (and, `spans` being parent-deterministic, it is
   the only reachable parentless node);
2. every non-root reachable node is contained, exactly once, in its
   parent's children, consistently with its back-reference;
3. leaves are childless;
4. every reachable node is reached exactly once — no sharing, no cycles. -/
def WF (h : Heap) (root : Nat) (t : ITree) : Prop :=
  t.id = root ∧ spans h none t = true ∧ t.ids.Nodup

mutual

/-- The subtree of `t` rooted at the node with id `n` (if any). -/
def ITree.find : ITree → Nat → Option ITree
  | .node i cs, n => if i = n then some (.node i cs) else findList cs n

def findList : List ITree → Nat → Option ITree
  | [], _ => none
  | c :: cs, n =>
      match c.find n with
      | some s => some s
      | none => findList cs n

end

/-- `b` is a (reflexive) descendant of `a` in `t`: `b` occurs in the subtree
rooted at `a`. -/
def descIn (t : ITree) (a b : Nat) : Prop :=
  ∃ s, t.find a = some s ∧ b ∈ s.ids

/-! ## Auxiliary predicates for the deserialization claims -/

mutual

/-- Documents shaped as in the spec's grammar, restricted to the node kinds
`deserialize_tree` implements without falling through: every node's `type`
is `"Sequence"`, `"Selector"` or `"Behavior"`, every `"Sequence"` node has a
`children` key (the code subscripts `node["children"]` unconditionally), and
no `"Behavior"` node has a non-empty `children` list.  `"Selector"` children
are never visited by the code, so nothing is required of them. -/
def wfDoc : Doc → Bool
  | .mk t _ _ _ children =>
      if t = "Sequence" then
        match children with
        | some cds => wfDocList cds
        | none => false
      else if t = "Behavior" then
        match children with
        | some (_ :: _) => false
        | _ => true
      else t = "Selector"

def wfDocList : List Doc → Bool
  | [] => true
  | d :: ds => wfDoc d && wfDocList ds

end

mutual

/-- The name of the first document node, in the evaluation order of
`deserialize_node` (each node's own library lookup happens before its
children are deserialized; `"Selector"` children are skipped), whose name
has no entry in the library's display-name index. -/
def firstMissing (lib : List BehaviorEntry) : Doc → Option String
  | .mk t name _ _ (some cds) =>
      if (behavior_from_display_name lib name).isNone then some name
      else if t = "Sequence" then firstMissingList lib cds
      else none
  | .mk t name _ _ none =>
      if (behavior_from_display_name lib name).isNone then some name
      else none

def firstMissingList (lib : List BehaviorEntry) : List Doc → Option String
  | [] => none
  | d :: ds =>
      match firstMissing lib d with
      | some m => some m
      | none => firstMissingList lib ds

end

mutual

/-- The certificate tree after removing the subtree rooted at `n`: every
child with id `n` is dropped, the rest is pruned recursively. -/
def pruneT (n : Nat) : ITree → ITree
  | .node i cs => .node i (pruneTList n cs)

def pruneTList (n : Nat) : List ITree → List ITree
  | [] => []
  | c :: cs =>
      if c.id = n then pruneTList n cs
      else pruneT n c :: pruneTList n cs

end

mutual

/-- The certificate tree after inserting the subtree `s` as child number `i`
of the node with id `p`. -/
def graftT (p : Nat) (i : Nat) (s : ITree) : ITree → ITree
  | .node j cs =>
      if j = p then .node j (cs.insertIdx i s)
      else .node j (graftTList p i s cs)

def graftTList (p : Nat) (i : Nat) (s : ITree) : List ITree → List ITree
  | [] => []
  | c :: cs => graftT p i s c :: graftTList p i s cs

end

/-! # Theorems

## Claim C1 — serialize/deserialize round trip -/

mutual

theorem firstMissing_missing (lib : List BehaviorEntry) :
    (d : Doc) → (m : String) → firstMissing lib d = some m →
      behavior_from_display_name lib m = none
  | .mk t name dn id (some cds), m, hm => by
      simp only [firstMissing.eq_def] at hm
      split at hm
      next hlook =>
        cases hm
        exact Option.isNone_iff_eq_none.mp hlook
      next =>
        split at hm
        · exact firstMissingList_missing lib cds m hm
        · cases hm
  | .mk t name dn id none, m, hm => by
      simp only [firstMissing.eq_def] at hm
      split at hm
      next hlook =>
        cases hm
        exact Option.isNone_iff_eq_none.mp hlook
      next => cases hm

theorem firstMissingList_missing (lib : List BehaviorEntry) :
    (ds : List Doc) → (m : String) → firstMissingList lib ds = some m →
      behavior_from_display_name lib m = none
  | d :: ds, m, hm => by
      rw [firstMissingList.eq_def] at hm
      simp only [] at hm
      cases hd : firstMissing lib d with
      | some m0 =>
          rw [hd] at hm
          cases hm
          exact firstMissing_missing lib d m hd
      | none =>
          rw [hd] at hm
          exact firstMissingList_missing lib ds m hm

end

theorem wf_type_valid {t name : String} {dn id : Option String}
    {children : Option (List Doc)}
    (hwf : wfDoc (.mk t name dn id children) = true) :
    t = "Sequence" ∨ t = "Selector" ∨ t = "Behavior" := by
  rw [wfDoc.eq_def] at hwf
  by_cases h1 : t = "Sequence"
  · exact Or.inl h1
  · by_cases h2 : t = "Behavior"
    · exact Or.inr (Or.inr h2)
    · refine Or.inr (Or.inl ?_)
      simp only [] at hwf
      rw [if_neg h1, if_neg h2] at hwf
      exact of_decide_eq_true hwf

theorem deser_fm_err_none (lib : List BehaviorEntry) (t name : String)
    (dn id : Option String) (hwf : wfDoc (.mk t name dn id none) = true)
    (m : String) (hm : firstMissing lib (.mk t name dn id none) = some m) :
    deserialize_node lib (.mk t name dn id none) = .error (.keyError m) := by
  have htv := wf_type_valid hwf
  rw [firstMissing.eq_def] at hm
  rw [deserialize_node.eq_def]
  simp only [] at hm ⊢
  by_cases hl : (behavior_from_display_name lib name).isNone
  · rw [if_pos hl] at hm
    cases hm
    rw [if_pos htv, Option.isNone_iff_eq_none.mp hl]
  · rw [if_neg hl] at hm
    cases hm

theorem deser_fm_err_some (lib : List BehaviorEntry) (t name : String)
    (dn id : Option String) (cds : List Doc)
    (hrec : wfDocList cds = true → ∀ m, firstMissingList lib cds = some m →
      deserialize_nodeList lib cds = .error (.keyError m))
    (hwf : wfDoc (.mk t name dn id (some cds)) = true)
    (m : String) (hm : firstMissing lib (.mk t name dn id (some cds)) = some m) :
    deserialize_node lib (.mk t name dn id (some cds)) = .error (.keyError m) := by
  have htv := wf_type_valid hwf
  rw [wfDoc.eq_def] at hwf
  rw [firstMissing.eq_def] at hm
  rw [deserialize_node.eq_def]
  simp only [] at hwf hm ⊢
  by_cases hl : (behavior_from_display_name lib name).isNone
  · rw [if_pos hl] at hm
    cases hm
    rw [if_pos htv, Option.isNone_iff_eq_none.mp hl]
  · rw [if_neg hl] at hm
    cases hb : behavior_from_display_name lib name with
    | none => rw [hb] at hl; simp at hl
    | some b =>
        by_cases ht : t = "Sequence"
        · subst ht
          rw [if_pos rfl] at hm hwf
          rw [if_pos htv]
          simp only []
          rw [if_pos trivial]
          rw [hrec hwf m hm]
          rfl
        · rw [if_neg ht] at hm
          cases hm

theorem deser_fm_ok_none (lib : List BehaviorEntry) (t name : String)
    (dn id : Option String) (hwf : wfDoc (.mk t name dn id none) = true)
    (hm : firstMissing lib (.mk t name dn id none) = none) :
    ∃ n, deserialize_node lib (.mk t name dn id none) = .ok n := by
  have htv := wf_type_valid hwf
  rw [wfDoc.eq_def] at hwf
  rw [firstMissing.eq_def] at hm
  rw [deserialize_node.eq_def]
  simp only [] at hwf hm ⊢
  by_cases hl : (behavior_from_display_name lib name).isNone
  · rw [if_pos hl] at hm
    cases hm
  · cases hb : behavior_from_display_name lib name with
    | none => rw [hb] at hl; simp at hl
    | some b =>
        rw [if_pos htv]
        simp only []
        by_cases ht : t = "Sequence"
        · subst ht
          rw [if_pos rfl] at hwf
          cases hwf
        · rw [if_neg ht]
          by_cases hbB : t = "Behavior"
          · rw [if_pos hbB]
            exact ⟨.beh b.name b.id b.name, rfl⟩
          · rw [if_neg hbB]
            exact ⟨.noneNode, rfl⟩

theorem deser_fm_ok_some (lib : List BehaviorEntry) (t name : String)
    (dn id : Option String) (cds : List Doc)
    (hrec : wfDocList cds = true → firstMissingList lib cds = none →
      ∃ ns, deserialize_nodeList lib cds = .ok ns)
    (hwf : wfDoc (.mk t name dn id (some cds)) = true)
    (hm : firstMissing lib (.mk t name dn id (some cds)) = none) :
    ∃ n, deserialize_node lib (.mk t name dn id (some cds)) = .ok n := by
  have htv := wf_type_valid hwf
  rw [wfDoc.eq_def] at hwf
  rw [firstMissing.eq_def] at hm
  rw [deserialize_node.eq_def]
  simp only [] at hwf hm ⊢
  by_cases hl : (behavior_from_display_name lib name).isNone
  · rw [if_pos hl] at hm
    cases hm
  · rw [if_neg hl] at hm
    cases hb : behavior_from_display_name lib name with
    | none => rw [hb] at hl; simp at hl
    | some b =>
        rw [if_pos htv]
        simp only []
        by_cases ht : t = "Sequence"
        · subst ht
          rw [if_pos rfl] at hwf hm
          obtain ⟨ns, hns⟩ := hrec hwf hm
          refine ⟨.seq b.name b.id b.name ns, ?_⟩
          rw [if_pos rfl, hns]
          rfl
        · rw [if_neg ht]
          by_cases hbB : t = "Behavior"
          · subst hbB
            rw [if_neg ht, if_pos rfl] at hwf
            rw [if_pos rfl]
            cases cds with
            | nil => exact ⟨.beh b.name b.id b.name, rfl⟩
            | cons c cs => cases hwf
          · rw [if_neg hbB]
            exact ⟨.noneNode, rfl⟩

mutual

theorem deser_fm_err (lib : List BehaviorEntry) :
    (d : Doc) → wfDoc d = true → (m : String) → firstMissing lib d = some m →
      deserialize_node lib d = .error (.keyError m)
  | .mk t name dn id none, hwf, m, hm =>
      deser_fm_err_none lib t name dn id hwf m hm
  | .mk t name dn id (some cds), hwf, m, hm =>
      deser_fm_err_some lib t name dn id cds
        (fun hw m2 hm2 => deser_fm_errList lib cds hw m2 hm2) hwf m hm

theorem deser_fm_errList (lib : List BehaviorEntry) :
    (ds : List Doc) → wfDocList ds = true → (m : String) →
      firstMissingList lib ds = some m →
      deserialize_nodeList lib ds = .error (.keyError m)
  | d :: ds, hwf, m, hm => by
      rw [wfDocList.eq_def] at hwf
      simp only [Bool.and_eq_true] at hwf
      rw [firstMissingList.eq_def] at hm
      simp only [] at hm
      rw [deserialize_nodeList.eq_def]
      simp only []
      cases hd : firstMissing lib d with
      | some m0 =>
          rw [hd] at hm
          cases hm
          rw [deser_fm_err lib d hwf.1 m hd]
          rfl
      | none =>
          rw [hd] at hm
          obtain ⟨n, hn⟩ := deser_fm_ok lib d hwf.1 hd
          rw [hn]
          show deserialize_nodeList lib ds >>= _ = _
          rw [deser_fm_errList lib ds hwf.2 m hm]
          rfl

theorem deser_fm_ok (lib : List BehaviorEntry) :
    (d : Doc) → wfDoc d = true → firstMissing lib d = none →
      ∃ n, deserialize_node lib d = .ok n
  | .mk t name dn id none, hwf, hm =>
      deser_fm_ok_none lib t name dn id hwf hm
  | .mk t name dn id (some cds), hwf, hm =>
      deser_fm_ok_some lib t name dn id cds
        (fun hw hm2 => deser_fm_okList lib cds hw hm2) hwf hm

theorem deser_fm_okList (lib : List BehaviorEntry) :
    (ds : List Doc) → wfDocList ds = true → firstMissingList lib ds = none →
      ∃ ns, deserialize_nodeList lib ds = .ok ns
  | [], _, _ => ⟨[], rfl⟩
  | d :: ds, hwf, hm => by
      rw [wfDocList.eq_def] at hwf
      simp only [Bool.and_eq_true] at hwf
      rw [firstMissingList.eq_def] at hm
      simp only [] at hm
      rw [deserialize_nodeList.eq_def]
      simp only []
      cases hd : firstMissing lib d with
      | some m0 => rw [hd] at hm; cases hm
      | none =>
          rw [hd] at hm
          obtain ⟨n, hn⟩ := deser_fm_ok lib d hwf.1 hd
          obtain ⟨ns, hns⟩ := deser_fm_okList lib ds hwf.2 hm
          refine ⟨n :: ns, ?_⟩
          rw [hn]
          show deserialize_nodeList lib ds >>= _ = _
          rw [hns]
          rfl

end

/-- **C1.** "For every tree T all of whose nodes carry identities (display
names) present in the behavior library L, deserializing the result of
serializing T against L yields a tree structurally equal to T."  The code
violates this: the only nodes carrying identities are `CustomBehavior` /
`CustomSequence` instances, `serialize_tree` emits their concrete class name
as the document `type`, and `deserialize_tree` asserts the `type` to be one
of `Sequence`/`Selector`/`Behavior` — so the round trip fails with an
`AssertionError` for *every* such tree, whatever the library contains. -/
theorem claim_C1_roundtrip_rejects_identity_nodes (t : PyTree)
    (lib : List BehaviorEntry)
    (hcls : t.cls = "CustomBehavior" ∨ t.cls = "CustomSequence") :
    deserialize_tree (serialize_tree t) lib =
      .error (.invalidType t.cls t.name) := by
  cases t with
  | mk cls name dn id cs =>
      simp only [PyTree.cls] at hcls
      simp only [deserialize_tree, serialize_tree, serializeNode, PyTree.cls,
        PyTree.name]
      rcases hcls with h | h <;> subst h <;>
        simp [deserialize_node]

/-- Witness for C1: a single library-backed `CustomBehavior` node whose
display name is present in the library; the round trip raises the
invalid-type assertion instead of reproducing the node. -/
theorem claim_C1_roundtrip_rejects_identity_nodes_witness :
    deserialize_tree
        (serialize_tree (.mk "CustomBehavior" "b" (some "B") (some "b0") []))
        [⟨"b", "b0", "B"⟩] =
      .error (.invalidType "CustomBehavior" "b") :=
  claim_C1_roundtrip_rejects_identity_nodes
    (.mk "CustomBehavior" "b" (some "B") (some "b0") []) [⟨"b", "b0", "B"⟩]
    (Or.inl rfl)

/-! ## Claim C9 — deserialization of a missing display name -/

/-- **C9.** "For every document node whose name has no entry in the supplied
behavior library's display-name index, deserialization fails with a lookup
error that names the missing display name, and no node is fabricated for
it."  For a well-shaped document (`wfDoc`), if some node's name is missing
from the index — `firstMissing` names the first such node in the evaluation
order of `deserialize_tree` — the whole deserialization fails with a
`KeyError` carrying exactly that name (the Python dict subscript
`behavior_from_display_name[node["name"]]`), that name indeed has no library
entry, and no tree is returned. -/
theorem claim_C9_missing_name_fails_lookup (lib : List BehaviorEntry)
    (d : Doc) (m : String) (hwf : wfDoc d = true)
    (hm : firstMissing lib d = some m) :
    deserialize_tree d lib = .error (.keyError m) ∧
      behavior_from_display_name lib m = none :=
  ⟨deser_fm_err lib d hwf m hm, firstMissing_missing lib d m hm⟩

/-- Witness for C9: a two-node document whose leaf name `"missing"` is not
in the library; deserialization fails with `KeyError "missing"`. -/
theorem claim_C9_missing_name_fails_lookup_witness :
    deserialize_tree
        (.mk "Sequence" "S" none none
          (some [.mk "Behavior" "missing" none none none]))
        [⟨"S", "s0", "S"⟩] =
      .error (.keyError "missing") ∧
    behavior_from_display_name [⟨"S", "s0", "S"⟩] "missing" = none :=
  claim_C9_missing_name_fails_lookup [⟨"S", "s0", "S"⟩]
    (.mk "Sequence" "S" none none
      (some [.mk "Behavior" "missing" none none none]))
    "missing" rfl rfl

end SocialNormsTrees

namespace SocialNormsTrees

/-! ## Claim C3 — insert bounds -/

/-- **C3.** "For every composite C and node n, insert(n, (C, i)) succeeds
exactly when 0 ≤ i ≤ len(C.children): in particular
insert(n, (C, len(C.children))) always succeeds as an append, and
insert(n, (C, len(C.children)+1)) always fails with a bounds error."
(The bounds check lives in `py_trees.Composite.insert_child`, which is
modelled from the spec; indices are naturals, so `0 ≤ i` is implicit.) -/
theorem claim_C3_insert_bounds (h : Heap) (n c : Nat) (nd cn : HNode)
    (hn : getNode h n = some nd) (hc : getNode h c = some cn)
    (hk : cn.kind = .composite) :
    (∀ i, (∃ h2, insertOp h n c i = .ok h2) ↔ i ≤ cn.children.length) ∧
    (∃ h2, insertOp h n c cn.children.length = .ok h2) ∧
    insertOp h n c (cn.children.length + 1) = .error (.boundsError, h) := by
  have hins : ∀ i, insertOp h n c i =
      if i ≤ cn.children.length then
        .ok (setParent (setChildren h c (cn.children.insertIdx i n)) n (some c))
      else .error (.boundsError, h) := by
    intro i
    unfold insertOp
    rw [hn, hc]
    simp only []
    rw [if_pos hk]
  refine ⟨fun i => ?_, ?_, ?_⟩
  · rw [hins i]
    constructor
    · intro ⟨h2, hh2⟩
      by_contra hgt
      rw [if_neg hgt] at hh2
      cases hh2
    · intro hle
      rw [if_pos hle]
      exact ⟨_, rfl⟩
  · rw [hins _, if_pos (le_refl _)]
    exact ⟨_, rfl⟩
  · rw [hins _, if_neg (by omega)]

/-- Witness for C3 on a concrete two-node heap (empty composite target):
index 0 (= `len(children)`) succeeds, index 1 (= `len+1`) fails. -/
theorem claim_C3_insert_bounds_witness :
    (∃ h2, insertOp [⟨.composite, "r", none, []⟩, ⟨.leaf, "a", none, []⟩]
      1 0 0 = .ok h2) ∧
    insertOp [⟨.composite, "r", none, []⟩, ⟨.leaf, "a", none, []⟩] 1 0 1 =
      .error (.boundsError,
        [⟨.composite, "r", none, []⟩, ⟨.leaf, "a", none, []⟩]) :=
  ⟨(claim_C3_insert_bounds
      [⟨.composite, "r", none, []⟩, ⟨.leaf, "a", none, []⟩]
      1 0 ⟨.leaf, "a", none, []⟩ ⟨.composite, "r", none, []⟩
      rfl rfl rfl).2.1,
   (claim_C3_insert_bounds
      [⟨.composite, "r", none, []⟩, ⟨.leaf, "a", none, []⟩]
      1 0 ⟨.leaf, "a", none, []⟩ ⟨.composite, "r", none, []⟩
      rfl rfl rfl).2.2⟩

/-! ## Claim C4 — move into the moved node's own subtree -/

/-- **C4.** "For every node n and every target (C, i) where C is n itself or
a descendant of n, move(n, (C, i)) is rejected with an error rather than
performed, since performing it would create a cycle."  The code contains no
such check (`move` is just `insert(remove(node), where)`), and the spec's
Open Questions section itself records the original as unchecked — a latent
defect.  On the heap `root ─ A ─ B` (all composites), `move(A, (B, 0))`
*succeeds*: the tree silently loses A's subtree and the detached nodes form
a cycle (`A.parent = B`, `B.children = [A]`, `B.parent = A`); and
`move(A, (A, 0))` also succeeds, making A its own parent. -/
theorem claim_C4_move_into_descendant_performed :
    moveOp [⟨.composite, "root", none, [1]⟩, ⟨.composite, "A", some 0, [2]⟩,
            ⟨.composite, "B", some 1, []⟩] 1 2 0 =
      .ok [⟨.composite, "root", none, []⟩, ⟨.composite, "A", some 2, [2]⟩,
           ⟨.composite, "B", some 1, [1]⟩] ∧
    moveOp [⟨.composite, "root", none, [1]⟩, ⟨.composite, "A", some 0, [2]⟩,
            ⟨.composite, "B", some 1, []⟩] 1 1 0 =
      .ok [⟨.composite, "root", none, []⟩,
           ⟨.composite, "A", some 1, [1, 2]⟩,
           ⟨.composite, "B", some 1, []⟩] :=
  ⟨rfl, rfl⟩

/-! ## Claim C5 — move atomicity on failure -/

/-- **C5** (as stated) is falsified by the insert half: when the remove half
succeeds and the insert half then fails (out-of-bounds index under the
spec-modelled bounds check), the node stays detached — the tree is *not*
"left exactly as it was".  Concretely, `move(A, (root, 5))` on the tree
`root ─ A` fails with a bounds error while leaving `A` removed from
`root.children` with its parent cleared. -/
theorem claim_C5_counterexample :
    moveOp [⟨.composite, "root", none, [1]⟩, ⟨.leaf, "A", some 0, []⟩] 1 0 5 =
      .error (.boundsError,
        [⟨.composite, "root", none, []⟩, ⟨.leaf, "A", none, []⟩]) ∧
    ([⟨.composite, "root", none, []⟩, ⟨.leaf, "A", none, []⟩] : Heap) ≠
      [⟨.composite, "root", none, [1]⟩, ⟨.leaf, "A", some 0, []⟩] :=
  ⟨rfl, by decide⟩

/-- **C5** (amended): `remove` never mutates on failure, so a `move` whose
*remove half* fails — in particular when `n` is the root
(`n.parent = none`) — leaves the tree exactly as it was; and `remove(n)`
fails with the "can't remove the root" error whenever `n.parent` is none.
Only the insert half can leave a partial mutation behind (the
counterexample above). -/
theorem claim_C5_remove_half_atomic (h : Heap) (n : Nat) :
    (∀ e h2, removeOp h n = .error (e, h2) → h2 = h) ∧
    (∀ e h2 c i, removeOp h n = .error (e, h2) →
      moveOp h n c i = .error (e, h2)) ∧
    (∀ nd, getNode h n = some nd → nd.parent = none →
      removeOp h n = .error (.valueErrorRoot, h)) := by
  refine ⟨?_, ?_, ?_⟩
  · intro e h2 herr
    unfold removeOp at herr
    cases hn : getNode h n with
    | none => rw [hn] at herr; cases herr; rfl
    | some nd =>
        rw [hn] at herr
        simp only [] at herr
        cases hp : nd.parent with
        | none => rw [hp] at herr; cases herr; rfl
        | some p =>
            rw [hp] at herr
            simp only [] at herr
            cases hpn : getNode h p with
            | none => rw [hpn] at herr; cases herr; rfl
            | some pn =>
                rw [hpn] at herr
                simp only [] at herr
                by_cases hk : pn.kind = .composite
                · rw [if_pos hk] at herr; cases herr
                · rw [if_neg hk] at herr; cases herr; rfl
  · intro e h2 c i herr
    unfold moveOp
    rw [herr]
  · intro nd hn hp
    unfold removeOp
    rw [hn]
    simp only []
    rw [hp]

/-- Witness for the amended C5: on the one-node heap, removing the root
fails with the root error and the failed `move` reports the unchanged
heap. -/
theorem claim_C5_remove_half_atomic_witness :
    removeOp [⟨.composite, "root", none, []⟩] 0 =
      .error (.valueErrorRoot, [⟨.composite, "root", none, []⟩]) ∧
    moveOp [⟨.composite, "root", none, []⟩] 0 0 0 =
      .error (.valueErrorRoot, [⟨.composite, "root", none, []⟩]) := by
  have hrem := (claim_C5_remove_half_atomic [⟨.composite, "root", none, []⟩]
    0).2.2 ⟨.composite, "root", none, []⟩ rfl rfl
  exact ⟨hrem, (claim_C5_remove_half_atomic [⟨.composite, "root", none, []⟩]
    0).2.1 _ _ 0 0 hrem⟩

/-! ## Claim C10 — exchange with the root -/

/-- **C10.** "For every tree and every pair of nodes (a, b) where a or b is
the root (has parent = none), exchange(a, b) raises an error while capturing
the original (parent, index) positions, before either move is performed, and
the tree is left unchanged."  The capture phase evaluates
`node.parent.children.index(node)`, so a `None` parent raises
`AttributeError` before any mutation; the error carries the untouched
heap. -/
theorem claim_C10_exchange_root_error (h : Heap) (a b : Nat) :
    (∀ na, getNode h a = some na → na.parent = none →
      exchangeOp h a b = .error (.attributeError, h)) ∧
    (∀ na pa pna ia nb, getNode h a = some na → na.parent = some pa →
      getNode h pa = some pna → pna.children.indexOf? a = some ia →
      getNode h b = some nb → nb.parent = none →
      exchangeOp h a b = .error (.attributeError, h)) := by
  constructor
  · intro na hna hp
    unfold exchangeOp
    rw [hna]
    simp only []
    rw [hp]
  · intro na pa pna ia nb hna hp hpna hia hnb hbp
    unfold exchangeOp
    rw [hna]
    simp only []
    rw [hp]
    simp only []
    rw [hpna]
    simp only []
    rw [hia]
    simp only []
    rw [hnb]
    simp only []
    rw [hbp]

/-- Witness for C10 on the concrete tree `root ─ A`: exchanging in either
order with the root raises the capture-phase error and returns the heap
unchanged. -/
theorem claim_C10_exchange_root_error_witness :
    exchangeOp [⟨.composite, "root", none, [1]⟩, ⟨.leaf, "A", some 0, []⟩]
      0 1 = .error (.attributeError,
        [⟨.composite, "root", none, [1]⟩, ⟨.leaf, "A", some 0, []⟩]) ∧
    exchangeOp [⟨.composite, "root", none, [1]⟩, ⟨.leaf, "A", some 0, []⟩]
      1 0 = .error (.attributeError,
        [⟨.composite, "root", none, [1]⟩, ⟨.leaf, "A", some 0, []⟩]) :=
  ⟨(claim_C10_exchange_root_error _ 0 1).1 ⟨.composite, "root", none, [1]⟩
     rfl rfl,
   (claim_C10_exchange_root_error _ 1 0).2 ⟨.leaf, "A", some 0, []⟩ 0
     ⟨.composite, "root", none, [1]⟩ 0 ⟨.composite, "root", none, [1]⟩
     rfl rfl rfl rfl rfl rfl⟩

/-! ## Claim C7 — full-node enumeration -/

mutual

theorem iterate_nodes_length : (t : BTree) →
    (iterate_nodes t).length = total_node_count t
  | .leaf n => by simp [iterate_nodes, total_node_count]
  | .comp n cs => by
      simp [iterate_nodes, total_node_count, iterate_list_length cs]
      omega

theorem iterate_list_length : (ts : List BTree) →
    (iterate_list ts).length = total_count_list ts
  | [] => by simp [iterate_list, total_count_list]
  | c :: cs => by
      simp [iterate_list, total_count_list, iterate_nodes_length c,
        iterate_list_length cs]

end

theorem iterate_nodes_head : (t : BTree) → (iterate_nodes t).head? = some t
  | .leaf n => rfl
  | .comp n cs => rfl

theorem mem_preorderPathsKids (j : Nat) (cs : List BTree) (q : List Nat) :
    q ∈ preorderPathsKids j cs ↔
      ∃ k p c, q = (j + k) :: p ∧ cs[k]? = some c ∧ p ∈ preorderPaths c := by
  induction cs generalizing j with
  | nil =>
      simp [preorderPathsKids]
  | cons c rest ih =>
      rw [preorderPathsKids.eq_def]
      simp only [List.mem_append, List.mem_map]
      constructor
      · rintro (⟨p, hp, rfl⟩ | hrest)
        · exact ⟨0, p, c, by simp, by simp, hp⟩
        · obtain ⟨k, p, c', hq, hk, hp⟩ := (ih (j + 1)).mp hrest
          refine ⟨k + 1, p, c', ?_, by simpa using hk, hp⟩
          rw [hq, show j + 1 + k = j + (k + 1) by omega]
      · rintro ⟨k, p, c', hq, hk, hp⟩
        cases k with
        | zero =>
            left
            simp only [List.getElem?_cons_zero, Option.some.injEq] at hk
            subst hk
            refine ⟨p, hp, ?_⟩
            rw [hq]
            simp
        | succ k2 =>
            right
            refine (ih (j + 1)).mpr ⟨k2, p, c', ?_, by simpa using hk, hp⟩
            rw [hq, show j + (k2 + 1) = j + 1 + k2 by omega]

mutual

theorem mem_preorderPaths : (t : BTree) → ∀ p : List Nat,
    p ∈ preorderPaths t ↔ (subtreeAt t p).isSome
  | .leaf n, p => by
      cases p with
      | nil => simp [preorderPaths, subtreeAt]
      | cons j p2 => simp [preorderPaths, subtreeAt]
  | .comp n cs, p => by
      cases p with
      | nil => simp [preorderPaths, subtreeAt]
      | cons j p2 =>
          rw [preorderPaths.eq_def]
          simp only [List.mem_cons]
          rw [subtreeAt.eq_def]
          simp only []
          constructor
          · rintro (h | h)
            · exact absurd h (by simp)
            · obtain ⟨k, p3, c, heq, hk, hp3⟩ :=
                (mem_preorderPathsKids 0 cs _).mp h
              have hjk : j = k ∧ p2 = p3 := by
                rw [Nat.zero_add] at heq
                exact ⟨(List.cons.injEq _ _ _ _ ▸ heq).1,
                  (List.cons.injEq _ _ _ _ ▸ heq).2⟩
              obtain ⟨rfl, rfl⟩ := hjk
              rw [hk]
              exact (mem_preorderPathsAll cs c (List.getElem?_mem hk) p2).mp hp3
          · intro h
            cases hk : cs[j]? with
            | none => rw [hk] at h; simp at h
            | some c =>
                rw [hk] at h
                right
                exact (mem_preorderPathsKids 0 cs _).mpr
                  ⟨j, p2, c, by simp, hk,
                   (mem_preorderPathsAll cs c (List.getElem?_mem hk) p2).mpr h⟩

theorem mem_preorderPathsAll : (cs : List BTree) → ∀ c, c ∈ cs → ∀ p : List Nat,
    p ∈ preorderPaths c ↔ (subtreeAt c p).isSome
  | c0 :: rest, c, hc, p => by
      rcases List.mem_cons.mp hc with rfl | hmem
      · exact mem_preorderPaths c p
      · exact mem_preorderPathsAll rest c hmem p

end

mutual

theorem preorderPaths_nodup : (t : BTree) → (preorderPaths t).Nodup
  | .leaf n => by simp [preorderPaths]
  | .comp n cs => by
      rw [preorderPaths.eq_def]
      simp only []
      refine List.nodup_cons.mpr ⟨?_, preorderPathsKids_nodup cs 0⟩
      intro hmem
      obtain ⟨k, p, c, heq, _, _⟩ := (mem_preorderPathsKids 0 cs _).mp hmem
      cases heq

theorem preorderPathsKids_nodup : (cs : List BTree) → ∀ j : Nat,
    (preorderPathsKids j cs).Nodup
  | [], j => by simp [preorderPathsKids]
  | c :: rest, j => by
      rw [preorderPathsKids.eq_def]
      refine List.Nodup.append ?_ (preorderPathsKids_nodup rest (j + 1)) ?_
      · exact (preorderPaths_nodup c).map
          (fun a b h => (List.cons.injEq j a j b ▸ h).2)
      · intro q hq1 hq2
        obtain ⟨p, _, rfl⟩ := List.mem_map.mp hq1
        obtain ⟨k, p2, c2, heq, _, _⟩ :=
          (mem_preorderPathsKids (j + 1) rest _).mp hq2
        have : j = j + 1 + k := (List.cons.injEq _ _ _ _ ▸ heq).1
        omega

end

mutual

theorem mapSubtree : (t : BTree) →
    (preorderPaths t).map (subtreeAt t) = (iterate_nodes t).map some
  | .leaf n => by simp [preorderPaths, subtreeAt, iterate_nodes]
  | .comp n cs => by
      rw [preorderPaths.eq_def, iterate_nodes.eq_def]
      simp only [List.map_cons]
      have h0 : subtreeAt (.comp n cs) [] = some (.comp n cs) := rfl
      rw [h0]
      congr 1
      have := mapSubtreeKids n cs []
      simpa using this

theorem mapSubtreeKids (nm : String) : (cs2 : List BTree) → (pre : List BTree) →
    (preorderPathsKids pre.length cs2).map (subtreeAt (.comp nm (pre ++ cs2)))
      = (iterate_list cs2).map some
  | [], pre => by simp [preorderPathsKids, iterate_list]
  | c :: rest, pre => by
      rw [preorderPathsKids.eq_def, iterate_list.eq_def]
      simp only [List.map_append, List.map_map]
      congr 1
      · have hpoint : ∀ p : List Nat,
            (subtreeAt (.comp nm (pre ++ c :: rest)) ∘ (pre.length :: ·)) p =
              subtreeAt c p := by
          intro p
          simp only [Function.comp_apply]
          rw [subtreeAt.eq_def]
          simp only []
          rw [List.getElem?_append_right (le_refl pre.length)]
          simp
        rw [List.map_congr_left (fun p _ => hpoint p)]
        exact mapSubtree c
      · have := mapSubtreeKids nm rest (pre ++ [c])
        have hlen : (pre ++ [c]).length = pre.length + 1 := by simp
        have happ : (pre ++ [c]) ++ rest = pre ++ c :: rest := by simp
        rw [hlen, happ] at this
        exact this

end

theorem get_node_mapping_head : (t : BTree) →
    (get_node_mapping t).head? = some ("0", t)
  | .leaf n => by
      simp only [get_node_mapping, enumerate_nodes]
      rw [iterate_nodes.eq_def]
      simp [List.enum_cons]
      rfl
  | .comp n cs => by
      simp only [get_node_mapping, enumerate_nodes]
      rw [iterate_nodes.eq_def]
      simp [List.enum_cons]
      rfl

theorem get_node_mapping_length (t : BTree) :
    (get_node_mapping t).length = total_node_count t := by
  simp [get_node_mapping, enumerate_nodes, List.enum_length,
    iterate_nodes_length t]

/-- **C7.** "For every tree T, the full-node enumeration visits every node
of T exactly once in depth-first pre-order, so the number of labels produced
equals the total node count of T, and label 0 is always assigned to the
root."  `iterate_nodes` produces exactly `total_node_count t` nodes (and
`get_node_mapping` as many labels), the first visited node — the one labelled
`"0"` — is the root, and visitation is exactly once: the visited sequence is
the image of the pre-order position list, which has no duplicates and
contains precisely the valid positions of `t`. -/
theorem claim_C7_full_enumeration (t : BTree) :
    (iterate_nodes t).length = total_node_count t ∧
    (get_node_mapping t).length = total_node_count t ∧
    (iterate_nodes t).head? = some t ∧
    (get_node_mapping t).head? = some ("0", t) ∧
    (preorderPaths t).map (subtreeAt t) = (iterate_nodes t).map some ∧
    (preorderPaths t).Nodup ∧
    (∀ p, p ∈ preorderPaths t ↔ (subtreeAt t p).isSome) :=
  ⟨iterate_nodes_length t, get_node_mapping_length t, iterate_nodes_head t,
   get_node_mapping_head t, mapSubtree t, preorderPaths_nodup t,
   fun p => mem_preorderPaths t p⟩

/-! ## Claim C8 — insertion-point enumeration -/

theorem buildIP_some (t : BTree) (sp x : List Nat) :
    buildIPOwners t sp (some x) = x :: buildIPOwners t sp none := by
  rw [buildIPOwners.eq_def, buildIPOwners.eq_def]
  cases t with
  | leaf n => rfl
  | comp n cs => cases cs <;> rfl

mutual

theorem buildIP_eq_bodySpec : (t : BTree) → ∀ sp : List Nat,
    buildIPOwners t sp none = bodySpec t sp
  | .leaf n, sp => by
      rw [buildIPOwners.eq_def, bodySpec.eq_def]
      rfl
  | .comp n cs, sp => by
      rw [buildIPOwners.eq_def, bodySpec.eq_def]
      cases cs with
      | nil => rfl
      | cons c rest =>
          simp only [List.nil_append]
          exact buildKids_eq_spec (c :: rest) (by simp) 0 rest.length sp (by simp)

theorem buildKids_eq_spec : (cs : List BTree) → cs ≠ [] →
    ∀ (j lastIdx : Nat) (sp : List Nat), j + cs.length = lastIdx + 1 →
    buildIPKids cs j lastIdx sp = kidsSpec cs j sp ++ [sp]
  | [], hne, _, _, _, _ => absurd rfl hne
  | c :: rest, _, j, lastIdx, sp, hinv => by
      rw [buildIPKids.eq_def, kidsSpec.eq_def]
      simp only []
      cases rest with
      | nil =>
          have hj : j = lastIdx := by simp at hinv; omega
          rw [if_pos hj]
          rw [buildIPKids.eq_def]
          cases c with
          | leaf n2 => simp [kidsSpec]
          | comp n2 cs2 =>
              simp only []
              rw [buildIP_some, buildIP_eq_bodySpec (.comp n2 cs2) (sp ++ [j])]
              simp [kidsSpec]
      | cons c2 rest2 =>
          have hj : ¬ j = lastIdx := by simp at hinv; omega
          rw [if_neg hj]
          rw [buildKids_eq_spec (c2 :: rest2) (by simp) (j + 1) lastIdx sp
            (by simp at hinv ⊢; omega)]
          cases c with
          | leaf n2 => simp
          | comp n2 cs2 =>
              simp only []
              rw [buildIP_some, buildIP_eq_bodySpec (.comp n2 cs2) (sp ++ [j])]
              simp

end

theorem ipCountAux_nil (nm : String) (cs : List BTree) :
    ipCountAux (.comp nm cs) [] = cs.length + 1 := by
  simp [ipCountAux, subtreeAt]

theorem ipCountAux_cons (nm : String) (cs : List BTree) (k : Nat) (q : List Nat) :
    ipCountAux (.comp nm cs) (k :: q) =
      match cs[k]? with
      | some c => ipCountAux c q
      | none => 0 := by
  rw [ipCountAux, subtreeAt.eq_def]
  simp only []
  cases hk : cs[k]? with
  | none => simp [ipCountAux]
  | some c =>
      simp only []
      cases hc : subtreeAt c q with
      | none => simp [ipCountAux, hc]
      | some s => cases s <;> simp [ipCountAux, hc]

theorem count_single_self (sp : List Nat) : ([sp] : List (List Nat)).count sp = 1 := by
  simp

theorem count_single_ne (sp p : List Nat) (h : p ≠ sp) :
    ([sp] : List (List Nat)).count p = 0 := by
  simp [List.count_cons, h]

theorem ne_append_cons (sp : List Nat) (k : Nat) (q : List Nat) :
    sp ++ k :: q ≠ sp := by
  intro h
  have hlen := congrArg List.length h
  simp at hlen

theorem append_cons_ne_append_cons (sp : List Nat) (a b : Nat)
    (qa qb : List Nat) (h : a ≠ b) : sp ++ a :: qa ≠ sp ++ b :: qb := by
  intro heq
  have := List.append_cancel_left heq
  cases this
  exact h rfl

mutual

theorem bodySpec_count_ext (nm : String) : (cs : List BTree) →
    ∀ (sp q : List Nat),
    (bodySpec (.comp nm cs) sp).count (sp ++ q) = ipCountAux (.comp nm cs) q
  | [], sp, q => by
      rw [bodySpec.eq_def]
      simp only []
      cases q with
      | nil =>
          rw [List.append_nil, count_single_self, ipCountAux_nil]
          simp
      | cons k q2 =>
          rw [count_single_ne sp _ (ne_append_cons sp k q2), ipCountAux_cons]
          simp
  | c :: rest, sp, q => by
      rw [bodySpec.eq_def]
      simp only []
      rw [List.count_append]
      cases q with
      | nil =>
          rw [List.append_nil, count_single_self,
            kidsSpec_count_sp (c :: rest) 0 sp, ipCountAux_nil]
      | cons k q2 =>
          rw [count_single_ne sp _ (ne_append_cons sp k q2),
            show (sp ++ k :: q2) = sp ++ (0 + k) :: q2 by rw [Nat.zero_add],
            kidsSpec_count_ext (c :: rest) 0 sp k q2, ipCountAux_cons]
          simp

theorem bodySpec_count_non (nm : String) : (cs : List BTree) →
    ∀ (sp p : List Nat), (∀ q, p ≠ sp ++ q) →
    (bodySpec (.comp nm cs) sp).count p = 0
  | [], sp, p, hp => by
      rw [bodySpec.eq_def]
      simp only []
      exact count_single_ne sp p (by simpa using hp [])
  | c :: rest, sp, p, hp => by
      rw [bodySpec.eq_def]
      simp only []
      rw [List.count_append, count_single_ne sp p (by simpa using hp []),
        kidsSpec_count_non (c :: rest) 0 sp p hp]

theorem kidsSpec_count_sp : (cs : List BTree) → ∀ (j : Nat) (sp : List Nat),
    (kidsSpec cs j sp).count sp = cs.length
  | [], j, sp => by simp [kidsSpec]
  | c :: rest, j, sp => by
      rw [kidsSpec.eq_def]
      simp only []
      rw [List.count_append, List.count_append, count_single_self,
        kidsSpec_count_sp rest (j + 1) sp]
      have hchild : (match c with
          | .comp nm2 cs2 => bodySpec (.comp nm2 cs2) (sp ++ [j])
          | .leaf _ => ([] : List (List Nat))).count sp = 0 := by
        cases c with
        | leaf n2 => simp
        | comp n2 cs2 =>
            refine bodySpec_count_non n2 cs2 (sp ++ [j]) sp (fun q heq => ?_)
            have hlen := congrArg List.length heq
            simp at hlen
      rw [hchild]
      simp [Nat.add_comm]

theorem kidsSpec_count_ext : (cs : List BTree) →
    ∀ (j : Nat) (sp : List Nat) (k : Nat) (q2 : List Nat),
    (kidsSpec cs j sp).count (sp ++ (j + k) :: q2) =
      (match cs[k]? with
       | some c => ipCountAux c q2
       | none => 0)
  | [], j, sp, k, q2 => by
      simp [kidsSpec]
  | c :: rest, j, sp, k, q2 => by
      rw [kidsSpec.eq_def]
      simp only []
      rw [List.count_append, List.count_append,
        count_single_ne sp _ (ne_append_cons sp _ q2)]
      cases k with
      | zero =>
          have hchild : (match c with
              | .comp nm2 cs2 => bodySpec (.comp nm2 cs2) (sp ++ [j])
              | .leaf _ => ([] : List (List Nat))).count (sp ++ (j + 0) :: q2) =
              ipCountAux c q2 := by
            cases c with
            | leaf n2 =>
                simp only [List.count_nil]
                cases hq : subtreeAt (.leaf n2) q2 with
                | none => rw [ipCountAux, hq]
                | some s =>
                    cases q2 with
                    | nil => rw [ipCountAux]; simp [subtreeAt]
                    | cons x xs => rw [subtreeAt.eq_def] at hq; cases hq
            | comp n2 cs2 =>
                have : sp ++ (j + 0) :: q2 = (sp ++ [j]) ++ q2 := by simp
                rw [this]
                exact bodySpec_count_ext n2 cs2 (sp ++ [j]) q2
          have hrest : (kidsSpec rest (j + 1) sp).count (sp ++ (j + 0) :: q2)
              = 0 := by
            rw [show (j + 0 : Nat) = (j + 1) + 0 - 1 by omega]
            exact kidsSpec_count_rest_lt rest (j + 1) sp ((j + 1) - 1) q2
              (by omega)
          rw [hchild, hrest]
          simp
      | succ k2 =>
          have hchild : (match c with
              | .comp nm2 cs2 => bodySpec (.comp nm2 cs2) (sp ++ [j])
              | .leaf _ => ([] : List (List Nat))).count
                (sp ++ (j + (k2 + 1)) :: q2) = 0 := by
            cases c with
            | leaf n2 => simp
            | comp n2 cs2 =>
                refine bodySpec_count_non n2 cs2 (sp ++ [j]) _ (fun q heq => ?_)
                rw [show (sp ++ [j]) ++ q = sp ++ j :: q by simp] at heq
                exact append_cons_ne_append_cons sp _ j q2 q (by omega) heq
          have hrest : (kidsSpec rest (j + 1) sp).count
              (sp ++ (j + (k2 + 1)) :: q2) =
              (match rest[k2]? with
               | some c => ipCountAux c q2
               | none => 0) := by
            rw [show j + (k2 + 1) = (j + 1) + k2 by omega]
            exact kidsSpec_count_ext rest (j + 1) sp k2 q2
          rw [hchild, hrest]
          simp

theorem kidsSpec_count_rest_lt : (cs : List BTree) →
    ∀ (j : Nat) (sp : List Nat) (m : Nat) (q2 : List Nat), m < j →
    (kidsSpec cs j sp).count (sp ++ m :: q2) = 0
  | [], j, sp, m, q2, hm => by simp [kidsSpec]
  | c :: rest, j, sp, m, q2, hm => by
      rw [kidsSpec.eq_def]
      simp only []
      rw [List.count_append, List.count_append,
        count_single_ne sp _ (ne_append_cons sp _ q2),
        kidsSpec_count_rest_lt rest (j + 1) sp m q2 (by omega)]
      have hchild : (match c with
          | .comp nm2 cs2 => bodySpec (.comp nm2 cs2) (sp ++ [j])
          | .leaf _ => ([] : List (List Nat))).count (sp ++ m :: q2) = 0 := by
        cases c with
        | leaf n2 => simp
        | comp n2 cs2 =>
            refine bodySpec_count_non n2 cs2 (sp ++ [j]) _ (fun q heq => ?_)
            rw [show (sp ++ [j]) ++ q = sp ++ j :: q by simp] at heq
            exact append_cons_ne_append_cons sp m j q2 q (by omega) heq
      rw [hchild]

theorem kidsSpec_count_non : (cs : List BTree) →
    ∀ (j : Nat) (sp p : List Nat), (∀ q, p ≠ sp ++ q) →
    (kidsSpec cs j sp).count p = 0
  | [], j, sp, p, hp => by simp [kidsSpec]
  | c :: rest, j, sp, p, hp => by
      rw [kidsSpec.eq_def]
      simp only []
      rw [List.count_append, List.count_append,
        count_single_ne sp p (by simpa using hp []),
        kidsSpec_count_non rest (j + 1) sp p hp]
      have hchild : (match c with
          | .comp nm2 cs2 => bodySpec (.comp nm2 cs2) (sp ++ [j])
          | .leaf _ => ([] : List (List Nat))).count p = 0 := by
        cases c with
        | leaf n2 => simp
        | comp n2 cs2 =>
            refine bodySpec_count_non n2 cs2 (sp ++ [j]) p (fun q heq => ?_)
            exact hp (j :: q) (by simpa using heq)
      rw [hchild]

end

theorem filter_len_eq_count (l : List (List Nat)) (p : List Nat) :
    (l.filter (fun q => q = p)).length = l.count p := by
  induction l with
  | nil => simp
  | cons a l ih =>
      by_cases h : a = p <;> simp [h, List.count_cons, List.filter_cons, ih]

theorem ipIndex_lt_count (l : List (List Nat)) (i : Nat) (hi : i < l.length) :
    ipIndex l i l[i] < l.count l[i] := by
  rw [ipIndex, filter_len_eq_count]
  generalize hp : l[i] = p
  have hdrop : l.drop i = p :: l.drop (i + 1) := by
    rw [List.drop_eq_getElem_cons hi, hp]
  have hsplit : l.count p = (l.take i).count p + (l.drop i).count p := by
    conv_lhs => rw [← List.take_append_drop i l]
    rw [List.count_append]
  rw [hsplit, hdrop, List.count_cons]
  simp

/-- **C8.** "For every tree whose root is a composite, the insertion-point
enumeration assigns to each composite with n children exactly n+1
insertion-point labels (exactly 1 if n == 0), and each label maps to a pair
(owning composite C, index i) with 0 <= i <= len(C.children)."  Owners are
node positions (Python object identity); `insertOwners` is the label-ordered
owner list of `get_insert_mapping`, and `ipIndex` the index component of the
mapping (the label's rank among labels with the same owner). -/
theorem claim_C8_insertion_points (nm : String) (cs : List BTree) :
    (∀ (p : List Nat) (nm2 : String) (cs2 : List BTree),
        subtreeAt (.comp nm cs) p = some (.comp nm2 cs2) →
        (insertOwners (.comp nm cs)).count p = cs2.length + 1) ∧
    (∀ i, (hi : i < (insertOwners (.comp nm cs)).length) →
        ∃ (nm2 : String) (cs2 : List BTree),
          subtreeAt (.comp nm cs) ((insertOwners (.comp nm cs)).get ⟨i, hi⟩) =
            some (.comp nm2 cs2) ∧
          ipIndex (insertOwners (.comp nm cs)) i
            ((insertOwners (.comp nm cs)).get ⟨i, hi⟩) ≤ cs2.length) := by
  have hb : insertOwners (.comp nm cs) = bodySpec (.comp nm cs) [] :=
    buildIP_eq_bodySpec _ []
  have hcount : ∀ p : List Nat,
      (insertOwners (.comp nm cs)).count p = ipCountAux (.comp nm cs) p := by
    intro p
    rw [hb]
    have := bodySpec_count_ext nm cs [] p
    simpa using this
  constructor
  · intro p nm2 cs2 hp
    rw [hcount p, ipCountAux, hp]
  · intro i hi
    have hmem : (insertOwners (.comp nm cs)).get ⟨i, hi⟩ ∈
        insertOwners (.comp nm cs) := List.get_mem _ _ _
    have hpos : 0 < (insertOwners (.comp nm cs)).count
        ((insertOwners (.comp nm cs)).get ⟨i, hi⟩) :=
      List.count_pos_iff.mpr hmem
    rw [hcount] at hpos
    cases hsub : subtreeAt (.comp nm cs)
        ((insertOwners (.comp nm cs)).get ⟨i, hi⟩) with
    | none => rw [ipCountAux, hsub] at hpos; simp at hpos
    | some s =>
        cases s with
        | leaf n2 => rw [ipCountAux, hsub] at hpos; simp at hpos
        | comp nm2 cs2 =>
            refine ⟨nm2, cs2, rfl, ?_⟩
            have hlt := ipIndex_lt_count (insertOwners (.comp nm cs)) i hi
            have hget : (insertOwners (.comp nm cs))[i] =
                (insertOwners (.comp nm cs)).get ⟨i, hi⟩ := rfl
            rw [hget] at hlt
            rw [hcount, ipCountAux, hsub] at hlt
            simp only [] at hlt
            omega

/-- Witness for C8 on the doctest tree `S0[Dummy, S1[]]`: the root owns
`2 + 1 = 3` labels, and label `2` maps to the empty composite `S1` at a
valid index. -/
theorem claim_C8_insertion_points_witness :
    (insertOwners (BTree.comp "S0" [BTree.leaf "Dummy", BTree.comp "S1" []])).count
        [] = [BTree.leaf "Dummy", BTree.comp "S1" []].length + 1 ∧
    ∃ (nm2 : String) (cs2 : List BTree),
      subtreeAt (BTree.comp "S0" [BTree.leaf "Dummy", BTree.comp "S1" []])
          ((insertOwners
            (BTree.comp "S0" [BTree.leaf "Dummy", BTree.comp "S1" []])).get
              ⟨2, by decide⟩) = some (BTree.comp nm2 cs2) ∧
      ipIndex (insertOwners
            (BTree.comp "S0" [BTree.leaf "Dummy", BTree.comp "S1" []])) 2
          ((insertOwners
            (BTree.comp "S0" [BTree.leaf "Dummy", BTree.comp "S1" []])).get
              ⟨2, by decide⟩) ≤ cs2.length :=
  ⟨(claim_C8_insertion_points "S0" [BTree.leaf "Dummy", BTree.comp "S1" []]).1
      [] "S0" [BTree.leaf "Dummy", BTree.comp "S1" []] rfl,
   (claim_C8_insertion_points "S0" [BTree.leaf "Dummy", BTree.comp "S1" []]).2
      2 (by decide)⟩

end SocialNormsTrees

namespace SocialNormsTrees

theorem length_updNode (h : Heap) (n : Nat) (f : HNode → HNode) :
    (updNode h n f).length = h.length := by
  rw [updNode]
  cases hn : h[n]? with
  | none => rfl
  | some nd => simp

theorem getNode_updNode_self (h : Heap) (n : Nat) (f : HNode → HNode)
    (nd : HNode) (hn : getNode h n = some nd) :
    getNode (updNode h n f) n = some (f nd) := by
  rw [updNode, getNode] at *
  rw [hn]
  simp only []
  exact List.getElem?_set_self (List.getElem?_eq_some.mp hn).1

theorem getNode_updNode_ne (h : Heap) (n m : Nat) (f : HNode → HNode)
    (hne : m ≠ n) : getNode (updNode h n f) m = getNode h m := by
  rw [updNode, getNode, getNode]
  cases hn : h[n]? with
  | none => rfl
  | some nd =>
      simp only []
      exact List.getElem?_set_ne (fun hh => hne hh.symm)

end SocialNormsTrees

namespace SocialNormsTrees

theorem setChildren_get_self (h : Heap) (n : Nat) (cs : List Nat) (nd : HNode)
    (hn : getNode h n = some nd) :
    getNode (setChildren h n cs) n = some { nd with children := cs } :=
  getNode_updNode_self h n _ nd hn

theorem setParent_get_self (h : Heap) (n : Nat) (p : Option Nat) (nd : HNode)
    (hn : getNode h n = some nd) :
    getNode (setParent h n p) n = some { nd with parent := p } :=
  getNode_updNode_self h n _ nd hn

theorem setChildren_get_ne (h : Heap) (n m : Nat) (cs : List Nat)
    (hne : m ≠ n) : getNode (setChildren h n cs) m = getNode h m :=
  getNode_updNode_ne h n m _ hne

theorem setParent_get_ne (h : Heap) (n m : Nat) (p : Option Nat)
    (hne : m ≠ n) : getNode (setParent h n p) m = getNode h m :=
  getNode_updNode_ne h n m _ hne

mutual

theorem spans_congr : (t : ITree) → ∀ (h1 h2 : Heap) (q : Option Nat),
    (∀ x, x ∈ t.ids → getNode h2 x = getNode h1 x) →
    spans h1 q t = true → spans h2 q t = true
  | .node i cs, h1, h2, q, hagree, hs => by
      rw [spans.eq_def] at hs ⊢
      simp only [] at hs ⊢
      have hid : i ∈ (ITree.node i cs).ids := by
        rw [ITree.ids.eq_def]
        simp
      rw [hagree i hid]
      cases hget : getNode h1 i with
      | none => rw [hget] at hs; cases hs
      | some nd =>
          rw [hget] at hs
          simp only [Bool.and_eq_true] at hs ⊢
          refine ⟨hs.1, ?_⟩
          refine spansList_congr cs h1 h2 i (fun x hx => hagree x ?_) hs.2
          rw [ITree.ids.eq_def]
          simp only [List.mem_cons]
          exact Or.inr hx

theorem spansList_congr : (cs : List ITree) → ∀ (h1 h2 : Heap) (i : Nat),
    (∀ x, x ∈ idsList cs → getNode h2 x = getNode h1 x) →
    spansList h1 i cs = true → spansList h2 i cs = true
  | [], _, _, _, _, _ => rfl
  | c :: rest, h1, h2, i, hagree, hs => by
      rw [spansList.eq_def] at hs ⊢
      simp only [Bool.and_eq_true] at hs ⊢
      refine ⟨spans_congr c h1 h2 (some i) (fun x hx => hagree x ?_) hs.1,
        spansList_congr rest h1 h2 i (fun x hx => hagree x ?_) hs.2⟩
      · rw [idsList.eq_def]
        simp only [List.mem_append]
        exact Or.inl hx
      · rw [idsList.eq_def]
        simp only [List.mem_append]
        exact Or.inr hx

end

end SocialNormsTrees

namespace SocialNormsTrees

theorem ids_cons (i : Nat) (cs : List ITree) :
    (ITree.node i cs).ids = i :: idsList cs := by
  rw [ITree.ids.eq_def]

theorem idsList_cons (c : ITree) (cs : List ITree) :
    idsList (c :: cs) = c.ids ++ idsList cs := by
  rw [idsList.eq_def]

theorem ids_head : (t : ITree) → ∃ rest, t.ids = t.id :: rest
  | .node i cs => ⟨idsList cs, by rw [ids_cons]; rfl⟩

theorem id_mem_ids (t : ITree) : t.id ∈ t.ids := by
  obtain ⟨rest, h⟩ := ids_head t
  rw [h]
  simp

theorem mem_idsList_iff (x : Nat) : (cs : List ITree) →
    (x ∈ idsList cs ↔ ∃ c ∈ cs, x ∈ c.ids)
  | [] => by
      rw [idsList.eq_def]
      simp only []
      simp
  | c :: rest => by
      rw [idsList_cons]
      simp only [List.mem_append, List.mem_cons]
      rw [mem_idsList_iff x rest]
      constructor
      · rintro (h | ⟨c2, hc2, hx⟩)
        · exact ⟨c, Or.inl rfl, h⟩
        · exact ⟨c2, Or.inr hc2, hx⟩
      · rintro ⟨c2, hc2 | hc2, hx⟩
        · exact Or.inl (hc2 ▸ hx)
        · exact Or.inr ⟨c2, hc2, hx⟩

theorem mapId_sublist : (cs : List ITree) →
    (cs.map ITree.id).Sublist (idsList cs)
  | [] => by
      rw [idsList.eq_def]
      exact List.nil_sublist _
  | c :: rest => by
      rw [idsList_cons, List.map_cons]
      obtain ⟨r, hr⟩ := ids_head c
      rw [hr]
      exact List.Sublist.append
        (List.cons_sublist_cons.mpr (List.nil_sublist r)) (mapId_sublist rest)

end SocialNormsTrees

namespace SocialNormsTrees

mutual

theorem find_id : (t : ITree) → ∀ (n : Nat) (s : ITree),
    t.find n = some s → s.id = n
  | .node i cs, n, s, h => by
      rw [ITree.find.eq_def] at h
      simp only [] at h
      by_cases hi : i = n
      · rw [if_pos hi] at h
        cases h
        exact hi
      · rw [if_neg hi] at h
        exact findList_id cs n s h

theorem findList_id : (cs : List ITree) → ∀ (n : Nat) (s : ITree),
    findList cs n = some s → s.id = n
  | c :: rest, n, s, h => by
      rw [findList.eq_def] at h
      simp only [] at h
      cases hc : c.find n with
      | some s2 =>
          rw [hc] at h
          cases h
          exact find_id c n s hc
      | none =>
          rw [hc] at h
          exact findList_id rest n s h

end

mutual

theorem find_ids_sublist : (t : ITree) → ∀ (n : Nat) (s : ITree),
    t.find n = some s → s.ids.Sublist t.ids
  | .node i cs, n, s, h => by
      rw [ITree.find.eq_def] at h
      simp only [] at h
      by_cases hi : i = n
      · rw [if_pos hi] at h
        cases h
        exact List.Sublist.refl _
      · rw [if_neg hi] at h
        rw [ids_cons]
        exact (findList_ids_sublist cs n s h).cons i

theorem findList_ids_sublist : (cs : List ITree) → ∀ (n : Nat) (s : ITree),
    findList cs n = some s → s.ids.Sublist (idsList cs)
  | c :: rest, n, s, h => by
      rw [findList.eq_def] at h
      simp only [] at h
      rw [idsList_cons]
      cases hc : c.find n with
      | some s2 =>
          rw [hc] at h
          cases h
          exact (find_ids_sublist c n s hc).trans (List.sublist_append_left _ _)
      | none =>
          rw [hc] at h
          exact (findList_ids_sublist rest n s h).trans
            (List.sublist_append_right _ _)

end

mutual

theorem mem_find_some : (t : ITree) → ∀ n : Nat, n ∈ t.ids →
    ∃ s, t.find n = some s
  | .node i cs, n, hmem => by
      rw [ITree.find.eq_def]
      simp only []
      by_cases hi : i = n
      · rw [if_pos hi]
        exact ⟨_, rfl⟩
      · rw [if_neg hi]
        rw [ids_cons] at hmem
        simp only [List.mem_cons] at hmem
        rcases hmem with rfl | hmem
        · exact absurd rfl hi
        · exact memList_find_some cs n hmem

theorem memList_find_some : (cs : List ITree) → ∀ n : Nat, n ∈ idsList cs →
    ∃ s, findList cs n = some s
  | c :: rest, n, hmem => by
      rw [findList.eq_def]
      simp only []
      cases hc : c.find n with
      | some s2 => exact ⟨s2, rfl⟩
      | none =>
          rw [idsList_cons] at hmem
          simp only [List.mem_append] at hmem
          rcases hmem with hmem | hmem
          · obtain ⟨s, hs⟩ := mem_find_some c n hmem
            rw [hs] at hc
            cases hc
          · exact memList_find_some rest n hmem
  | [], n, hmem => by
      rw [idsList.eq_def] at hmem
      cases hmem

end

theorem find_some_mem (t : ITree) (n : Nat) (s : ITree)
    (h : t.find n = some s) : n ∈ t.ids := by
  have hid := find_id t n s h
  have hsub := find_ids_sublist t n s h
  exact hsub.mem (hid ▸ id_mem_ids s)

theorem find_none_of_not_mem (t : ITree) (n : Nat) (h : n ∉ t.ids) :
    t.find n = none := by
  cases hf : t.find n with
  | none => rfl
  | some s => exact absurd (find_some_mem t n s hf) h

theorem findList_none_of_not_mem (cs : List ITree) (n : Nat)
    (h : n ∉ idsList cs) : findList cs n = none := by
  induction cs with
  | nil => rw [findList.eq_def]
  | cons c rest ih =>
      rw [findList.eq_def]
      simp only []
      rw [idsList_cons] at h
      simp only [List.mem_append] at h
      push_neg at h
      rw [find_none_of_not_mem c n h.1]
      exact ih h.2

mutual

theorem find_spans : (t : ITree) → ∀ (h : Heap) (q : Option Nat) (n : Nat)
    (s : ITree), spans h q t = true → t.find n = some s →
    ∃ q2, spans h q2 s = true
  | .node i cs, h, q, n, s, hsp, hf => by
      rw [ITree.find.eq_def] at hf
      simp only [] at hf
      by_cases hi : i = n
      · rw [if_pos hi] at hf
        cases hf
        exact ⟨q, hsp⟩
      · rw [if_neg hi] at hf
        rw [spans.eq_def] at hsp
        simp only [] at hsp
        cases hget : getNode h i with
        | none => rw [hget] at hsp; cases hsp
        | some nd =>
            rw [hget] at hsp
            simp only [Bool.and_eq_true] at hsp
            exact findList_spans cs h i n s hsp.2 hf

theorem findList_spans : (cs : List ITree) → ∀ (h : Heap) (i : Nat) (n : Nat)
    (s : ITree), spansList h i cs = true → findList cs n = some s →
    ∃ q2, spans h q2 s = true
  | c :: rest, h, i, n, s, hsp, hf => by
      rw [findList.eq_def] at hf
      simp only [] at hf
      rw [spansList.eq_def] at hsp
      simp only [Bool.and_eq_true] at hsp
      cases hc : c.find n with
      | some s2 =>
          rw [hc] at hf
          cases hf
          exact find_spans c h (some i) n s hsp.1 hc
      | none =>
          rw [hc] at hf
          exact findList_spans rest h i n s hsp.2 hf

end

end SocialNormsTrees

namespace SocialNormsTrees

theorem indexOf?_cons (a b : Nat) (l : List Nat) :
    (b :: l).indexOf? a = if b == a then some 0
      else (l.indexOf? a).map (· + 1) := by
  simp [List.indexOf?, List.findIdx?_cons]

theorem indexOf?_of_mem (a : Nat) (l : List Nat) (h : a ∈ l) :
    ∃ i, l.indexOf? a = some i ∧ l[i]? = some a ∧ a ∉ l.take i := by
  induction l with
  | nil => cases h
  | cons b rest ih =>
      rw [indexOf?_cons]
      by_cases hb : b = a
      · subst hb
        refine ⟨0, by simp, by simp, by simp⟩
      · have hmem : a ∈ rest := by
          rcases List.mem_cons.mp h with rfl | hm
          · exact absurd rfl hb
          · exact hm
        obtain ⟨i, h1, h2, h3⟩ := ih hmem
        refine ⟨i + 1, ?_, by simpa using h2, ?_⟩
        · rw [if_neg (by simpa using hb), h1]
          rfl
        · intro hmem2
          rw [List.take_succ_cons] at hmem2
          rcases List.mem_cons.mp hmem2 with rfl | hm
          · exact hb rfl
          · exact h3 hm

theorem indexOf?_eq_some_of (a : Nat) (l : List Nat) (i : Nat)
    (hget : l[i]? = some a) (htake : a ∉ l.take i) :
    l.indexOf? a = some i := by
  induction l generalizing i with
  | nil => cases hget
  | cons b rest ih =>
      rw [indexOf?_cons]
      cases i with
      | zero =>
          simp only [List.getElem?_cons_zero, Option.some.injEq] at hget
          rw [if_pos (by simpa using hget)]
      | succ j =>
          rw [List.take_succ_cons] at htake
          simp only [List.mem_cons] at htake
          push_neg at htake
          rw [if_neg (by simpa using Ne.symm htake.1)]
          rw [ih j (by simpa using hget) htake.2]
          rfl

theorem indexOf?_bound (a : Nat) (l : List Nat) (i : Nat)
    (h : l.indexOf? a = some i) : l[i]? = some a ∧ a ∉ l.take i ∧
      i < l.length := by
  induction l generalizing i with
  | nil => cases h
  | cons b rest ih =>
      rw [indexOf?_cons] at h
      by_cases hb : b = a
      · rw [if_pos (by simpa using hb)] at h
        cases h
        refine ⟨by simpa using hb, by simp, by simp⟩
      · rw [if_neg (by simpa using hb)] at h
        cases hi : rest.indexOf? a with
        | none => rw [hi] at h; cases h
        | some j =>
            rw [hi] at h
            simp at h
            subst h
            obtain ⟨h1, h2, h3⟩ := ih j hi
            refine ⟨by simpa using h1, ?_, by simpa using h3⟩
            rw [List.take_succ_cons]
            simp only [List.mem_cons]
            push_neg
            exact ⟨Ne.symm hb, h2⟩

end SocialNormsTrees

namespace SocialNormsTrees

theorem ids_sublist_of_mem : (cs : List ITree) → ∀ c ∈ cs,
    c.ids.Sublist (idsList cs)
  | c0 :: rest, c, hc => by
      rw [idsList_cons]
      rcases List.mem_cons.mp hc with rfl | hm
      · exact List.sublist_append_left _ _
      · exact (ids_sublist_of_mem rest c hm).trans
          (List.sublist_append_right _ _)

theorem spans_root_entry (h : Heap) (q : Option Nat) (t : ITree)
    (hs : spans h q t = true) :
    ∃ rd, getNode h t.id = some rd ∧ rd.parent = q ∧
      rd.children = t.kids.map ITree.id ∧
      (rd.kind = .composite ∨ t.kids = []) := by
  cases t with
  | node i cs =>
      rw [spans.eq_def] at hs
      simp only [] at hs
      cases hget : getNode h i with
      | none => rw [hget] at hs; cases hs
      | some nd =>
          rw [hget] at hs
          simp only [Bool.and_eq_true, Bool.or_eq_true, beq_iff_eq] at hs
          obtain ⟨⟨⟨hp, hc⟩, hk⟩, hsl⟩ := hs
          refine ⟨nd, hget, hp, hc, ?_⟩
          rcases hk with hk | hk
          · exact Or.inl hk
          · exact Or.inr (by simpa [ITree.kids] using hk)

theorem spans_kids (h : Heap) (q : Option Nat) (t : ITree)
    (hs : spans h q t = true) : spansList h t.id t.kids = true := by
  cases t with
  | node i cs =>
      rw [spans.eq_def] at hs
      simp only [] at hs
      cases hget : getNode h i with
      | none => rw [hget] at hs; cases hs
      | some nd =>
          rw [hget] at hs
          simp only [Bool.and_eq_true] at hs
          exact hs.2

theorem find_self (t : ITree) : t.find t.id = some t := by
  cases t with
  | node i cs =>
      rw [ITree.find.eq_def]
      simp [ITree.id]

theorem findList_scan (cs : List ITree) (n : Nat)
    (hnd : (idsList cs).Nodup) :
    ∀ c ∈ cs, n ∈ c.ids → findList cs n = c.find n := by
  induction cs with
  | nil => intro c hc; cases hc
  | cons c0 rest ih =>
      intro c hc hn
      rw [findList.eq_def]
      simp only []
      rw [idsList_cons] at hnd
      rcases List.mem_cons.mp hc with rfl | hm
      · obtain ⟨s, hs⟩ := mem_find_some c n hn
        rw [hs]
      · have hn0 : n ∉ c0.ids := by
          intro hn0
          have hdis := (List.nodup_append.mp hnd).2.2
          exact hdis hn0 ((mem_idsList_iff n rest).mpr ⟨c, hm, hn⟩)
        rw [find_none_of_not_mem c0 n hn0]
        exact ih (List.nodup_append.mp hnd).2.1 c hm hn

theorem idsList_sublist_ids : (t : ITree) → (idsList t.kids).Sublist t.ids
  | .node i cs => by
      rw [ids_cons]
      exact List.sublist_cons_self _ _

theorem spans_children_subtree (h : Heap) (q : Option Nat) (t : ITree)
    (x : Nat) (sx : ITree) (xd : HNode) (hs : spans h q t = true)
    (hf : t.find x = some sx) (hx : getNode h x = some xd) :
    ∀ y ∈ xd.children, y ∈ sx.ids := by
  obtain ⟨q2, hs2⟩ := find_spans t h q x sx hs hf
  obtain ⟨rd, hrd, _, hrc, _⟩ := spans_root_entry h q2 sx hs2
  have hid : sx.id = x := find_id t x sx hf
  rw [hid, hx] at hrd
  cases hrd
  intro y hy
  rw [hrc] at hy
  obtain ⟨c, hc, rfl⟩ := List.mem_map.mp hy
  exact (idsList_sublist_ids sx).mem
    ((ids_sublist_of_mem sx.kids c hc).mem (id_mem_ids c))

end SocialNormsTrees

namespace SocialNormsTrees

theorem spansList_mem (h : Heap) (i : Nat) :
    (cs : List ITree) → spansList h i cs = true → ∀ c ∈ cs,
      spans h (some i) c = true
  | c0 :: rest, hs, c, hc => by
      rw [spansList.eq_def] at hs
      simp only [Bool.and_eq_true] at hs
      rcases List.mem_cons.mp hc with rfl | hm
      · exact hs.1
      · exact spansList_mem h i rest hs.2 c hm

mutual

theorem parentData : (t : ITree) → ∀ (h : Heap) (q : Option Nat),
    spans h q t = true → t.ids.Nodup → ∀ x, x ∈ t.ids → x ≠ t.id →
    ∃ (px : Nat) (nx pnx : HNode) (ix : Nat) (sx spx : ITree),
      getNode h x = some nx ∧ nx.parent = some px ∧
      px ∈ t.ids ∧ getNode h px = some pnx ∧ pnx.kind = .composite ∧
      pnx.children.indexOf? x = some ix ∧ pnx.children.Nodup ∧
      (∀ y, y ∈ pnx.children → y ∈ t.ids) ∧
      t.find x = some sx ∧ sx.id = x ∧ px ∉ sx.ids ∧
      t.find px = some spx ∧ (∀ y, y ∈ pnx.children → y ∈ spx.ids)
  | .node i cs, h, q, hs, hnd, x, hx, hxne => by
      have hnd2 := hnd
      rw [ids_cons] at hnd2
      have hndList : (idsList cs).Nodup := (List.nodup_cons.mp hnd2).2
      have hiNot : i ∉ idsList cs := (List.nodup_cons.mp hnd2).1
      obtain ⟨rd, hrd, hrp, hrc, hrk⟩ := spans_root_entry h q _ hs
      have hkids := spans_kids h q _ hs
      have hxcs : x ∈ idsList cs := by
        rw [ids_cons] at hx
        rcases List.mem_cons.mp hx with rfl | hm
        · exact absurd rfl hxne
        · exact hm
      obtain ⟨c, hc, hxc⟩ := (mem_idsList_iff x cs).mp hxcs
      have hcnd : c.ids.Nodup := hndList.sublist (ids_sublist_of_mem cs c hc)
      have hcs : spans h (some i) c = true := spansList_mem h i cs hkids c hc
      have hine : i ≠ x := fun hh => hiNot (hh ▸ hxcs)
      have hfind : (ITree.node i cs).find x = c.find x := by
        rw [ITree.find.eq_def]
        simp only []
        rw [if_neg hine]
        exact findList_scan cs x hndList c hc hxc
      by_cases hcid : c.id = x
      · -- x is a direct child of the root i
        obtain ⟨cd, hcd, hcp, _, _⟩ := spans_root_entry h (some i) c hcs
        rw [hcid] at hcd
        have hmemc : x ∈ rd.children := by
          rw [hrc]
          simp only [ITree.kids, List.mem_map]
          exact ⟨c, hc, hcid⟩
        have hchnd : rd.children.Nodup := by
          rw [hrc]
          exact hndList.sublist (mapId_sublist cs)
        obtain ⟨ix, hix, _, _⟩ := indexOf?_of_mem x rd.children hmemc
        have hkind : rd.kind = .composite := by
          rcases hrk with hk | hk
          · exact hk
          · rw [hrc, hk] at hmemc
            cases hmemc
        have hfx : (ITree.node i cs).find x = some c := by
          rw [hfind, ← hcid, find_self]
        refine ⟨i, cd, rd, ix, c, .node i cs, hcd, hcp, ?_, hrd, hkind,
          hix, hchnd, ?_, hfx, hcid, ?_, ?_, ?_⟩
        · rw [ids_cons]; simp
        · intro y hy
          rw [hrc] at hy
          obtain ⟨c2, hc2, rfl⟩ := List.mem_map.mp hy
          rw [ids_cons]
          simp only [List.mem_cons]
          exact Or.inr ((ids_sublist_of_mem cs c2 hc2).mem (id_mem_ids c2))
        · intro hmem
          exact hiNot ((ids_sublist_of_mem cs c hc).mem hmem)
        · rw [ITree.find.eq_def]
          simp [ITree.id]
        · intro y hy
          rw [hrc] at hy
          obtain ⟨c2, hc2, rfl⟩ := List.mem_map.mp hy
          rw [ids_cons]
          simp only [List.mem_cons]
          exact Or.inr ((ids_sublist_of_mem cs c2 hc2).mem (id_mem_ids c2))
      · -- x lies deeper inside the child c
        obtain ⟨px, nx, pnx, ix, sx, spx, h1, h2, h3, h4, h5, h6, h7, h8,
          h9, h10, h11, h12, h13⟩ :=
          parentDataList cs h i hkids hndList c hc x hxc
            (fun hh => hcid hh.symm)
        have hpxcs : px ∈ idsList cs := (mem_idsList_iff px cs).mpr
          ⟨c, hc, h3⟩
        have hpine : i ≠ px := fun hh => hiNot (hh ▸ hpxcs)
        refine ⟨px, nx, pnx, ix, sx, spx, h1, h2, ?_, h4, h5, h6, h7, ?_,
          ?_, h10, h11, ?_, h13⟩
        · rw [ids_cons]
          exact List.mem_cons.mpr (Or.inr hpxcs)
        · intro y hy
          rw [ids_cons]
          exact List.mem_cons.mpr
            (Or.inr ((ids_sublist_of_mem cs c hc).mem (h8 y hy)))
        · rw [ITree.find.eq_def]
          simp only []
          rw [if_neg hine]
          rw [findList_scan cs x hndList c hc hxc]
          exact h9
        · rw [ITree.find.eq_def]
          simp only []
          rw [if_neg hpine]
          rw [findList_scan cs px hndList c hc h3]
          exact h12

theorem parentDataList : (cs : List ITree) → ∀ (h : Heap) (i : Nat),
    spansList h i cs = true → (idsList cs).Nodup →
    ∀ c ∈ cs, ∀ x, x ∈ c.ids → x ≠ c.id →
    ∃ (px : Nat) (nx pnx : HNode) (ix : Nat) (sx spx : ITree),
      getNode h x = some nx ∧ nx.parent = some px ∧
      px ∈ c.ids ∧ getNode h px = some pnx ∧ pnx.kind = .composite ∧
      pnx.children.indexOf? x = some ix ∧ pnx.children.Nodup ∧
      (∀ y, y ∈ pnx.children → y ∈ c.ids) ∧
      c.find x = some sx ∧ sx.id = x ∧ px ∉ sx.ids ∧
      c.find px = some spx ∧ (∀ y, y ∈ pnx.children → y ∈ spx.ids)
  | c0 :: rest, h, i, hs, hnd, c, hc, x, hx, hxne => by
      rw [spansList.eq_def] at hs
      simp only [Bool.and_eq_true] at hs
      rw [idsList_cons] at hnd
      rcases List.mem_cons.mp hc with rfl | hm
      · exact parentData c h (some i) hs.1
          ((List.nodup_append.mp hnd).1) x hx hxne
      · exact parentDataList rest h i hs.2 (List.nodup_append.mp hnd).2.1
          c hm x hx hxne

end

end SocialNormsTrees

namespace SocialNormsTrees

theorem hnode_eta (nd : HNode) : ⟨nd.kind, nd.name, nd.parent, nd.children⟩ = nd := rfl

theorem insertIdx_boundary : ∀ (P : List Nat) (u : List Nat) (x : Nat),
    (P ++ u).insertIdx P.length x = P ++ x :: u
  | [], u, x => by simp [List.insertIdx_zero]
  | p :: P, u, x => by
      simp only [List.cons_append, List.length_cons, List.insertIdx_succ_cons]
      rw [insertIdx_boundary P u x]

theorem erase_boundary (t1 t2 : List Nat) (a : Nat) (h : a ∉ t1) :
    (t1 ++ a :: t2).erase a = t1 ++ t2 := by
  rw [List.erase_append_right _ h, List.erase_cons_head]

theorem sur_erase_insert (t1 t2 : List Nat) (a b : Nat) (h : a ∉ t1) :
    ((t1 ++ a :: t2).erase a).insertIdx t1.length b = t1 ++ b :: t2 := by
  rw [erase_boundary t1 t2 a h, insertIdx_boundary]

theorem sur_insert_erase (u1 u2 : List Nat) (a b : Nat) (h : b ∉ u1)
    (hab : a ≠ b) :
    ((u1 ++ b :: u2).insertIdx u1.length a).erase b = u1 ++ a :: u2 := by
  rw [insertIdx_boundary, List.erase_append_right _ h, List.erase_cons,
    if_neg (by simpa using hab), List.erase_cons_head]

theorem removeOp_eq (h : Heap) (n p : Nat) (nd pn : HNode)
    (hn : getNode h n = some nd) (hp : nd.parent = some p)
    (hpn : getNode h p = some pn) (hk : pn.kind = .composite) :
    removeOp h n =
      .ok (setParent (setChildren h p (pn.children.erase n)) n none, n) := by
  unfold removeOp
  rw [hn]
  simp only []
  rw [hp]
  simp only []
  rw [hpn]
  simp only []
  rw [if_pos hk]

theorem insertOp_eq (h : Heap) (n c i : Nat) (nd cn : HNode)
    (hn : getNode h n = some nd) (hc : getNode h c = some cn)
    (hk : cn.kind = .composite) (hi : i ≤ cn.children.length) :
    insertOp h n c i =
      .ok (setParent (setChildren h c (cn.children.insertIdx i n)) n
        (some c)) := by
  unfold insertOp
  rw [hn]
  simp only []
  rw [hc]
  simp only []
  rw [if_pos hk, if_pos hi]

theorem exchangeOp_eq (h : Heap) (a b pa pb ia ib : Nat) (na nb pna pnb : HNode)
    (hna : getNode h a = some na) (hpa : na.parent = some pa)
    (hpna : getNode h pa = some pna)
    (hia : pna.children.indexOf? a = some ia)
    (hnb : getNode h b = some nb) (hpb : nb.parent = some pb)
    (hpnb : getNode h pb = some pnb)
    (hib : pnb.children.indexOf? b = some ib) :
    exchangeOp h a b =
      (moveOp h a pb ib).bind (fun h1 => moveOp h1 b pa ia) := by
  unfold exchangeOp
  rw [hna]
  simp only []
  rw [hpa]
  simp only []
  rw [hpna]
  simp only []
  rw [hia]
  simp only []
  rw [hnb]
  simp only []
  rw [hpb]
  simp only []
  rw [hpnb]
  simp only []
  rw [hib]
  simp only []
  cases moveOp h a pb ib <;> rfl

end SocialNormsTrees

namespace SocialNormsTrees

theorem length_setChildren (h : Heap) (n : Nat) (cs : List Nat) :
    (setChildren h n cs).length = h.length := length_updNode h n _

theorem length_setParent (h : Heap) (n : Nat) (p : Option Nat) :
    (setParent h n p).length = h.length := length_updNode h n _

theorem getElem_append_mid (P : List Nat) (x : Nat) (u : List Nat) :
    (P ++ x :: u)[P.length]? = some x := by
  rw [List.getElem?_append_right (le_refl _)]
  simp

theorem take_append_left (P : List Nat) (x : Nat) (u : List Nat) :
    (P ++ x :: u).take P.length = P := List.take_left P _

theorem move_char_ne (h : Heap) (n p c : Nat) (i : Nat) (nd pn cn : HNode)
    (hn : getNode h n = some nd) (hp : nd.parent = some p)
    (hpn : getNode h p = some pn) (hkp : pn.kind = .composite)
    (hcn : getNode h c = some cn) (hkc : cn.kind = .composite)
    (hi : i ≤ cn.children.length)
    (hnp : n ≠ p) (hnc : n ≠ c) (hpc : p ≠ c) :
    ∃ h2, moveOp h n c i = .ok h2 ∧
      getNode h2 p = some { pn with children := pn.children.erase n } ∧
      getNode h2 c = some { cn with children := cn.children.insertIdx i n } ∧
      getNode h2 n = some { nd with parent := some c } ∧
      (∀ x, x ≠ p → x ≠ c → x ≠ n → getNode h2 x = getNode h x) ∧
      h2.length = h.length := by
  have hg1n : getNode (setParent (setChildren h p (pn.children.erase n)) n none)
      n = some { nd with parent := none } :=
    setParent_get_self _ n none _
      (by rw [setChildren_get_ne h p n _ hnp]; exact hn)
  have hg1c : getNode (setParent (setChildren h p (pn.children.erase n)) n none)
      c = some cn := by
    rw [setParent_get_ne _ n c none (Ne.symm hnc),
      setChildren_get_ne h p c _ (Ne.symm hpc)]
    exact hcn
  refine ⟨setParent (setChildren
      (setParent (setChildren h p (pn.children.erase n)) n none)
      c (cn.children.insertIdx i n)) n (some c), ?_, ?_, ?_, ?_, ?_, ?_⟩
  · unfold moveOp
    rw [removeOp_eq h n p nd pn hn hp hpn hkp]
    exact insertOp_eq _ n c i _ cn hg1n hg1c hkc hi
  · rw [setParent_get_ne _ n p _ (Ne.symm hnp),
      setChildren_get_ne _ c p _ hpc,
      setParent_get_ne _ n p none (Ne.symm hnp)]
    exact setChildren_get_self h p _ pn hpn
  · rw [setParent_get_ne _ n c _ (Ne.symm hnc)]
    exact setChildren_get_self _ c _ cn hg1c
  · exact setParent_get_self _ n (some c) { nd with parent := none }
      (by rw [setChildren_get_ne _ c n _ hnc]; exact hg1n)
  · intro x hxp hxc hxn
    rw [setParent_get_ne _ n x _ hxn, setChildren_get_ne _ c x _ hxc,
      setParent_get_ne _ n x none hxn, setChildren_get_ne _ p x _ hxp]
  · rw [length_setParent, length_setChildren, length_setParent,
      length_setChildren]

theorem move_char_self (h : Heap) (n p : Nat) (i : Nat) (nd pn : HNode)
    (hn : getNode h n = some nd) (hp : nd.parent = some p)
    (hpn : getNode h p = some pn) (hkp : pn.kind = .composite)
    (hi : i ≤ (pn.children.erase n).length) (hnp : n ≠ p) :
    ∃ h2, moveOp h n p i = .ok h2 ∧
      getNode h2 p = some
        { pn with children := (pn.children.erase n).insertIdx i n } ∧
      getNode h2 n = some { nd with parent := some p } ∧
      (∀ x, x ≠ p → x ≠ n → getNode h2 x = getNode h x) ∧
      h2.length = h.length := by
  have hg1n : getNode (setParent (setChildren h p (pn.children.erase n)) n none)
      n = some { nd with parent := none } :=
    setParent_get_self _ n none _
      (by rw [setChildren_get_ne h p n _ hnp]; exact hn)
  have hg1p : getNode (setParent (setChildren h p (pn.children.erase n)) n none)
      p = some { pn with children := pn.children.erase n } := by
    rw [setParent_get_ne _ n p none (Ne.symm hnp)]
    exact setChildren_get_self h p _ pn hpn
  refine ⟨setParent (setChildren
      (setParent (setChildren h p (pn.children.erase n)) n none)
      p ((pn.children.erase n).insertIdx i n)) n (some p), ?_, ?_, ?_, ?_, ?_⟩
  · unfold moveOp
    rw [removeOp_eq h n p nd pn hn hp hpn hkp]
    exact insertOp_eq _ n p i _ _ hg1n hg1p hkp hi
  · rw [setParent_get_ne _ n p _ (Ne.symm hnp)]
    exact setChildren_get_self _ p _
      { pn with children := pn.children.erase n } hg1p
  · exact setParent_get_self _ n (some p) { nd with parent := none }
      (by rw [setChildren_get_ne _ p n _ hnp]; exact hg1n)
  · intro x hxp hxn
    rw [setParent_get_ne _ n x _ hxn, setChildren_get_ne _ p x _ hxp,
      setParent_get_ne _ n x none hxn, setChildren_get_ne _ p x _ hxp]
  · rw [length_setParent, length_setChildren, length_setParent,
      length_setChildren]

end SocialNormsTrees

namespace SocialNormsTrees

theorem exchange_char_diff (h : Heap) (a b pa pb : Nat) (na nb pna pnb : HNode)
    (t1 t2 u1 u2 : List Nat)
    (hna : getNode h a = some na) (hpa : na.parent = some pa)
    (hpna : getNode h pa = some pna) (hka : pna.kind = .composite)
    (hca : pna.children = t1 ++ a :: t2) (hat1 : a ∉ t1)
    (hnb : getNode h b = some nb) (hpb : nb.parent = some pb)
    (hpnb : getNode h pb = some pnb) (hkb : pnb.kind = .composite)
    (hcb : pnb.children = u1 ++ b :: u2) (hbu1 : b ∉ u1)
    (hab : a ≠ b) (hapa : a ≠ pa) (hapb : a ≠ pb) (hbpa : b ≠ pa)
    (hbpb : b ≠ pb) (hpapb : pa ≠ pb) :
    ∃ h4, exchangeOp h a b = .ok h4 ∧
      getNode h4 pa = some { pna with children := t1 ++ b :: t2 } ∧
      getNode h4 pb = some { pnb with children := u1 ++ a :: u2 } ∧
      getNode h4 a = some { na with parent := some pb } ∧
      getNode h4 b = some { nb with parent := some pa } ∧
      (∀ x, x ≠ pa → x ≠ pb → x ≠ a → x ≠ b →
        getNode h4 x = getNode h x) ∧
      h4.length = h.length := by
  have hia : pna.children.indexOf? a = some t1.length := by
    rw [hca]
    exact indexOf?_eq_some_of a _ _ (getElem_append_mid t1 a t2)
      (by rw [take_append_left]; exact hat1)
  have hib : pnb.children.indexOf? b = some u1.length := by
    rw [hcb]
    exact indexOf?_eq_some_of b _ _ (getElem_append_mid u1 b u2)
      (by rw [take_append_left]; exact hbu1)
  obtain ⟨h2, hmv1, hd1pa, hd1pb, hd1a, hd1fr, hd1len⟩ :=
    move_char_ne h a pa pb u1.length na pna pnb hna hpa hpna hka hpnb hkb
      (by rw [hcb]; simp) hapa hapb hpapb
  have hg2b : getNode h2 b = some nb := by
    rw [hd1fr b hbpa hbpb (Ne.symm hab)]
    exact hnb
  obtain ⟨h4, hmv2, hd2pb, hd2pa, hd2b, hd2fr, hd2len⟩ :=
    move_char_ne h2 b pb pa t1.length nb
      { pnb with children := pnb.children.insertIdx u1.length a }
      { pna with children := pna.children.erase a }
      hg2b hpb hd1pb hkb hd1pa hka
      (by
        simp only []
        rw [hca, erase_boundary t1 t2 a hat1]
        simp)
      hbpb hbpa (Ne.symm hpapb)
  refine ⟨h4, ?_, ?_, ?_, ?_, ?_, ?_, ?_⟩
  · rw [exchangeOp_eq h a b pa pb t1.length u1.length na nb pna pnb
      hna hpa hpna hia hnb hpb hpnb hib, hmv1]
    simpa using hmv2
  · rw [hd2pa]
    simp only []
    rw [hca, sur_erase_insert t1 t2 a b hat1]
  · rw [hd2pb]
    simp only []
    rw [hcb, sur_insert_erase u1 u2 a b hbu1 hab]
  · rw [hd2fr a hapb hapa hab, hd1a]
  · rw [hd2b]
  · intro x hxpa hxpb hxa hxb
    rw [hd2fr x hxpb hxpa hxb, hd1fr x hxpa hxpb hxa]
  · rw [hd2len, hd1len]

end SocialNormsTrees

namespace SocialNormsTrees

theorem exchange_char_same (h : Heap) (a b p : Nat) (na nb pn : HNode)
    (t1 t2 t3 : List Nat)
    (hna : getNode h a = some na) (hpa : na.parent = some p)
    (hnb : getNode h b = some nb) (hpb : nb.parent = some p)
    (hpn : getNode h p = some pn) (hk : pn.kind = .composite)
    (hc : pn.children = t1 ++ a :: t2 ++ b :: t3)
    (hat1 : a ∉ t1) (hat2 : a ∉ t2) (hbt1 : b ∉ t1) (hbt2 : b ∉ t2)
    (hab : a ≠ b) (hap : a ≠ p) (hbp : b ≠ p) :
    ∃ h4, exchangeOp h a b = .ok h4 ∧
      getNode h4 p = some { pn with children := t1 ++ b :: t2 ++ a :: t3 } ∧
      getNode h4 a = some { na with parent := some p } ∧
      getNode h4 b = some { nb with parent := some p } ∧
      (∀ x, x ≠ p → x ≠ a → x ≠ b → getNode h4 x = getNode h x) ∧
      h4.length = h.length := by
  have hgetb : pn.children[(t1 ++ a :: t2).length]? = some b := by
    rw [hc, show t1 ++ a :: t2 ++ b :: t3 = (t1 ++ a :: t2) ++ b :: t3 by
      simp]
    exact getElem_append_mid _ b t3
  have hbP : b ∉ t1 ++ a :: t2 := by
    simp only [List.mem_append, List.mem_cons]
    push_neg
    exact ⟨hbt1, Ne.symm hab, hbt2⟩
  have hia : pn.children.indexOf? a = some t1.length := by
    rw [hc, show t1 ++ a :: t2 ++ b :: t3 = t1 ++ a :: (t2 ++ b :: t3) by
      simp]
    exact indexOf?_eq_some_of a _ _ (getElem_append_mid t1 a _)
      (by rw [take_append_left]; exact hat1)
  have hib : pn.children.indexOf? b = some (t1 ++ a :: t2).length := by
    rw [hc, show t1 ++ a :: t2 ++ b :: t3 = (t1 ++ a :: t2) ++ b :: t3 by
      simp]
    exact indexOf?_eq_some_of b _ _ (getElem_append_mid _ b t3)
      (by rw [take_append_left]; exact hbP)
  have herase_a : pn.children.erase a = t1 ++ t2 ++ b :: t3 := by
    rw [hc, show t1 ++ a :: t2 ++ b :: t3 = t1 ++ a :: (t2 ++ b :: t3) by
      simp]
    rw [erase_boundary t1 _ a hat1]
    simp
  have hins_a : (pn.children.erase a).insertIdx (t1 ++ a :: t2).length a =
      t1 ++ t2 ++ b :: a :: t3 := by
    rw [herase_a, show t1 ++ t2 ++ b :: t3 = (t1 ++ t2 ++ [b]) ++ t3 by simp,
      show (t1 ++ a :: t2).length = (t1 ++ t2 ++ [b]).length by simp,
      insertIdx_boundary]
    simp
  obtain ⟨h2, hmv1, hd1p, hd1a, hd1fr, hd1len⟩ :=
    move_char_self h a p (t1 ++ a :: t2).length na pn hna hpa hpn hk
      (by rw [herase_a]; simp) hap
  rw [hins_a] at hd1p
  have hg2b : getNode h2 b = some nb := by
    rw [hd1fr b hbp (Ne.symm hab)]
    exact hnb
  have herase_b : (t1 ++ t2 ++ b :: a :: t3).erase b = t1 ++ t2 ++ a :: t3 := by
    rw [show t1 ++ t2 ++ b :: a :: t3 = (t1 ++ t2) ++ b :: (a :: t3) by simp,
      erase_boundary _ _ b (by
        simp only [List.mem_append]
        push_neg
        exact ⟨hbt1, hbt2⟩)]
  have hins_b : ((t1 ++ t2 ++ b :: a :: t3).erase b).insertIdx t1.length b =
      t1 ++ b :: t2 ++ a :: t3 := by
    rw [herase_b, show t1 ++ t2 ++ a :: t3 = t1 ++ (t2 ++ a :: t3) by simp,
      insertIdx_boundary]
    simp
  obtain ⟨h4, hmv2, hd2p, hd2b, hd2fr, hd2len⟩ :=
    move_char_self h2 b p t1.length nb
      { pn with children := t1 ++ t2 ++ b :: a :: t3 }
      hg2b hpb hd1p (by simpa using hk)
      (by
        simp only []
        rw [herase_b]
        simp) hbp
  refine ⟨h4, ?_, ?_, ?_, ?_, ?_, ?_⟩
  · rw [exchangeOp_eq h a b p p t1.length (t1 ++ a :: t2).length na nb pn pn
      hna hpa hpn hia hnb hpb hpn hib, hmv1]
    simpa using hmv2
  · rw [hd2p]
    simp only []
    rw [hins_b]
  · rw [hd2fr a hap hab, hd1a]
  · rw [hd2b]
  · intro x hxp hxa hxb
    rw [hd2fr x hxp hxb, hd1fr x hxp hxa]
  · rw [hd2len, hd1len]

end SocialNormsTrees

namespace SocialNormsTrees

theorem exchange_char_same_ba (h : Heap) (a b p : Nat) (na nb pn : HNode)
    (t1 t2 t3 : List Nat)
    (hna : getNode h a = some na) (hpa : na.parent = some p)
    (hnb : getNode h b = some nb) (hpb : nb.parent = some p)
    (hpn : getNode h p = some pn) (hk : pn.kind = .composite)
    (hc : pn.children = t1 ++ b :: t2 ++ a :: t3)
    (hat1 : a ∉ t1) (hat2 : a ∉ t2) (hbt1 : b ∉ t1) (hbt2 : b ∉ t2)
    (hab : a ≠ b) (hap : a ≠ p) (hbp : b ≠ p) :
    ∃ h4, exchangeOp h a b = .ok h4 ∧
      getNode h4 p = some { pn with children := t1 ++ a :: t2 ++ b :: t3 } ∧
      getNode h4 a = some { na with parent := some p } ∧
      getNode h4 b = some { nb with parent := some p } ∧
      (∀ x, x ≠ p → x ≠ a → x ≠ b → getNode h4 x = getNode h x) ∧
      h4.length = h.length := by
  have haP : a ∉ t1 ++ b :: t2 := by
    simp only [List.mem_append, List.mem_cons]
    push_neg
    exact ⟨hat1, hab, hat2⟩
  have hia : pn.children.indexOf? a = some (t1 ++ b :: t2).length := by
    rw [hc, show t1 ++ b :: t2 ++ a :: t3 = (t1 ++ b :: t2) ++ a :: t3 by
      simp]
    exact indexOf?_eq_some_of a _ _ (getElem_append_mid _ a t3)
      (by rw [take_append_left]; exact haP)
  have hib : pn.children.indexOf? b = some t1.length := by
    rw [hc, show t1 ++ b :: t2 ++ a :: t3 = t1 ++ b :: (t2 ++ a :: t3) by
      simp]
    exact indexOf?_eq_some_of b _ _ (getElem_append_mid t1 b _)
      (by rw [take_append_left]; exact hbt1)
  have herase_a : pn.children.erase a = t1 ++ b :: t2 ++ t3 := by
    rw [hc, show t1 ++ b :: t2 ++ a :: t3 = (t1 ++ b :: t2) ++ a :: t3 by
      simp]
    rw [erase_boundary _ _ a haP]
  have hins_a : (pn.children.erase a).insertIdx t1.length a =
      t1 ++ a :: b :: t2 ++ t3 := by
    rw [herase_a, show t1 ++ b :: t2 ++ t3 = t1 ++ (b :: t2 ++ t3) by simp,
      insertIdx_boundary]
    simp
  obtain ⟨h2, hmv1, hd1p, hd1a, hd1fr, hd1len⟩ :=
    move_char_self h a p t1.length na pn hna hpa hpn hk
      (by rw [herase_a]; simp) hap
  rw [hins_a] at hd1p
  have hg2b : getNode h2 b = some nb := by
    rw [hd1fr b hbp (Ne.symm hab)]
    exact hnb
  have herase_b : (t1 ++ a :: b :: t2 ++ t3).erase b = t1 ++ a :: t2 ++ t3 := by
    rw [show t1 ++ a :: b :: t2 ++ t3 = (t1 ++ [a]) ++ b :: (t2 ++ t3) by simp,
      erase_boundary _ _ b (by
        simp only [List.mem_append, List.mem_singleton]
        push_neg
        exact ⟨hbt1, Ne.symm hab⟩)]
    simp
  have hins_b : ((t1 ++ a :: b :: t2 ++ t3).erase b).insertIdx
      (t1 ++ b :: t2).length b = t1 ++ a :: t2 ++ b :: t3 := by
    rw [herase_b, show t1 ++ a :: t2 ++ t3 = (t1 ++ a :: t2) ++ t3 by simp,
      show (t1 ++ b :: t2).length = (t1 ++ a :: t2).length by simp,
      insertIdx_boundary]
  obtain ⟨h4, hmv2, hd2p, hd2b, hd2fr, hd2len⟩ :=
    move_char_self h2 b p (t1 ++ b :: t2).length nb
      { pn with children := t1 ++ a :: b :: t2 ++ t3 }
      hg2b hpb hd1p (by simpa using hk)
      (by
        simp only []
        rw [herase_b]
        simp) hbp
  refine ⟨h4, ?_, ?_, ?_, ?_, ?_, ?_⟩
  · rw [exchangeOp_eq h a b p p (t1 ++ b :: t2).length t1.length na nb pn pn
      hna hpa hpn hia hnb hpb hpn hib, hmv1]
    simpa using hmv2
  · rw [hd2p]
    simp only []
    rw [hins_b]
  · rw [hd2fr a hap hab, hd1a]
  · rw [hd2b]
  · intro x hxp hxa hxb
    rw [hd2fr x hxp hxb, hd1fr x hxp hxa]
  · rw [hd2len, hd1len]

end SocialNormsTrees

namespace SocialNormsTrees

theorem child_parent (h : Heap) (q : Option Nat) (t : ITree)
    (x : Nat) (xd : HNode) (hs : spans h q t = true)
    (hx : x ∈ t.ids) (hxd : getNode h x = some xd) :
    ∀ y ∈ xd.children, ∃ yd, getNode h y = some yd ∧ yd.parent = some x := by
  obtain ⟨sx, hsx⟩ := mem_find_some t x hx
  have hid : sx.id = x := find_id t x sx hsx
  obtain ⟨q2, hs2⟩ := find_spans t h q x sx hs hsx
  obtain ⟨rd, hrd, _, hrc, _⟩ := spans_root_entry h q2 sx hs2
  rw [hid, hxd] at hrd
  cases hrd
  have hkids := spans_kids h q2 sx hs2
  intro y hy
  rw [hrc] at hy
  obtain ⟨c, hc, rfl⟩ := List.mem_map.mp hy
  have hcs : spans h (some sx.id) c = true :=
    spansList_mem h sx.id sx.kids hkids c hc
  obtain ⟨cd, hcd, hcp, _, _⟩ := spans_root_entry h (some sx.id) c hcs
  exact ⟨cd, hcd, by rw [hcp, hid]⟩

theorem nodup_pair_decomp (l : List Nat) (a b : Nat)
    (ha : a ∈ l) (hb : b ∈ l) (hab : a ≠ b) :
    (∃ t1 t2 t3, l = t1 ++ a :: t2 ++ b :: t3) ∨
    (∃ t1 t2 t3, l = t1 ++ b :: t2 ++ a :: t3) := by
  obtain ⟨s, t, rfl⟩ := List.append_of_mem ha
  rcases List.mem_append.mp hb with hbs | hbt
  · obtain ⟨u, v, rfl⟩ := List.append_of_mem hbs
    right
    exact ⟨u, v, t, by simp⟩
  · rcases List.mem_cons.mp hbt with rfl | hbt2
    · exact absurd rfl hab
    · obtain ⟨u, v, rfl⟩ := List.append_of_mem hbt2
      left
      exact ⟨s, u, v, by simp⟩

theorem nodup_split_not_mem (s t : List Nat) (a : Nat)
    (hnd : (s ++ a :: t).Nodup) : a ∉ s := by
  intro hm
  simp only [List.nodup_append, List.nodup_cons, List.disjoint_left] at hnd
  exact hnd.2.2 hm (List.mem_cons_self a t)

theorem nodup_decomp_facts (t1 t2 t3 : List Nat) (a b : Nat)
    (hnd : (t1 ++ a :: t2 ++ b :: t3).Nodup) :
    a ∉ t1 ∧ a ∉ t2 ∧ b ∉ t1 ∧ b ∉ t2 := by
  have hb : b ∉ t1 ++ a :: t2 :=
    nodup_split_not_mem (t1 ++ a :: t2) t3 b hnd
  have ha1 : a ∉ t1 :=
    nodup_split_not_mem t1 (t2 ++ b :: t3) a (by simpa using hnd)
  have hsub : (a :: t2).Sublist (t1 ++ a :: t2 ++ b :: t3) := by
    exact (List.sublist_append_left (a :: t2) (b :: t3)).trans (by simp)
  have ha2 : a ∉ t2 := (List.nodup_cons.mp (hnd.sublist hsub)).1
  simp only [List.mem_append, List.mem_cons] at hb
  push_neg at hb
  exact ⟨ha1, ha2, hb.1, hb.2.2⟩

theorem mem_of_indexOf? (a : Nat) (l : List Nat) (i : Nat)
    (h : l.indexOf? a = some i) : a ∈ l := by
  obtain ⟨h1, _, _⟩ := indexOf?_bound a l i h
  exact List.getElem?_mem h1

theorem heap_ext (h1 h2 : Heap)
    (hget : ∀ x, getNode h1 x = getNode h2 x) : h1 = h2 :=
  List.ext_getElem? hget

theorem hnode_parent_eta (nd : HNode) (p : Option Nat)
    (h : nd.parent = p) : { nd with parent := p } = nd := by
  cases nd
  cases h
  rfl

theorem hnode_children_eta (nd : HNode) (c : List Nat)
    (h : nd.children = c) : { nd with children := c } = nd := by
  cases nd
  cases h
  rfl

theorem descIn_self (t : ITree) (a : Nat) (ha : a ∈ t.ids) : descIn t a a := by
  obtain ⟨s, hs⟩ := mem_find_some t a ha
  exact ⟨s, hs, find_id t a s hs ▸ id_mem_ids s⟩

end SocialNormsTrees

namespace SocialNormsTrees

theorem indexOf?_decomp (a : Nat) (l : List Nat) (i : Nat)
    (h : l.indexOf? a = some i) :
    l = l.take i ++ a :: l.drop (i + 1) ∧ a ∉ l.take i := by
  obtain ⟨h1, h2, h3⟩ := indexOf?_bound a l i h
  refine ⟨?_, h2⟩
  have hd : l.drop i = l[i] :: l.drop (i + 1) := List.drop_eq_getElem_cons h3
  have h4 : l[i] = a := by
    rw [List.getElem?_eq_getElem h3] at h1
    simpa using h1
  rw [h4] at hd
  conv_lhs => rw [← List.take_append_drop i l, hd]

end SocialNormsTrees

namespace SocialNormsTrees

/-- C6: `exchange` is self-inverse: for two nodes of a well-formed tree,
neither an ancestor of the other, exchanging them succeeds, and exchanging
them again returns the heap to exactly its original state — every node back
under its original parent at its original index. -/
theorem claim_C6_exchange_involutive (h : Heap) (root : Nat) (t : ITree)
    (a b : Nat) (hwf : WF h root t) (ha : a ∈ t.ids) (hb : b ∈ t.ids)
    (hnab : ¬ descIn t a b) (hnba : ¬ descIn t b a) :
    ∃ h1, exchangeOp h a b = .ok h1 ∧ exchangeOp h1 a b = .ok h := by
  obtain ⟨hroot, hsp, hnd⟩ := hwf
  have hab : a ≠ b := by
    rintro rfl
    exact hnab (descIn_self t a ha)
  have hat : a ≠ t.id := by
    rintro rfl
    exact hnab ⟨t, find_self t, hb⟩
  have hbt : b ≠ t.id := by
    rintro rfl
    exact hnba ⟨t, find_self t, ha⟩
  obtain ⟨pa, na, pna, ia, sa, spa, hna, hpaeq, hpamem, hpna, hka, hia,
    hnda, hsuba, hfa, hsaid, hpansa, hfpa, hsubpa⟩ :=
    parentData t h none hsp hnd a ha hat
  obtain ⟨pb, nb, pnb, ib, sb, spb, hnb, hpbeq, hpbmem, hpnb, hkb, hib,
    hndb, hsubb, hfb, hsbid, hpbnsb, hfpb, hsubpb⟩ :=
    parentData t h none hsp hnd b hb hbt
  have hapa : a ≠ pa := by
    rintro rfl
    exact hpansa (hsaid ▸ id_mem_ids sa)
  have hbpb : b ≠ pb := by
    rintro rfl
    exact hpbnsb (hsbid ▸ id_mem_ids sb)
  have hapb : a ≠ pb := by
    rintro rfl
    exact hnab ⟨spb, hfpb, hsubpb b (mem_of_indexOf? b _ ib hib)⟩
  have hbpa : b ≠ pa := by
    rintro rfl
    exact hnba ⟨spa, hfpa, hsubpa a (mem_of_indexOf? a _ ia hia)⟩
  by_cases hpp : pa = pb
  · -- same parent
    subst hpp
    have hpnab : pna = pnb := by
      have hx := hpna.symm.trans hpnb
      injection hx
    subst hpnab
    have hamem : a ∈ pna.children := mem_of_indexOf? a _ ia hia
    have hbmem : b ∈ pna.children := mem_of_indexOf? b _ ib hib
    rcases nodup_pair_decomp pna.children a b hamem hbmem hab with
      ⟨t1, t2, t3, hdec⟩ | ⟨t1, t2, t3, hdec⟩
    · obtain ⟨ha1, ha2, hb1, hb2⟩ :=
        nodup_decomp_facts t1 t2 t3 a b (hdec ▸ hnda)
      obtain ⟨h1, hx1, hg1p, hg1a, hg1b, hg1fr, hg1len⟩ :=
        exchange_char_same h a b pa na nb pna t1 t2 t3 hna hpaeq hnb hpbeq
          hpna hka hdec ha1 ha2 hb1 hb2 hab hapa hbpa
      obtain ⟨h2, hx2, hg2p, hg2a, hg2b, hg2fr, hg2len⟩ :=
        exchange_char_same_ba h1 a b pa
          { na with parent := some pa } { nb with parent := some pa }
          { pna with children := t1 ++ b :: t2 ++ a :: t3 } t1 t2 t3
          hg1a rfl hg1b rfl hg1p hka rfl
          ha1 ha2 hb1 hb2 hab hapa hbpa
      have hh2 : h2 = h := by
        apply heap_ext
        intro x
        by_cases hxp : x = pa
        · subst hxp
          rw [hg2p, hpna]
          exact congrArg some (hnode_children_eta pna _ hdec)
        by_cases hxa : x = a
        · subst hxa
          rw [hg2a, hna]
          exact congrArg some (hnode_parent_eta na _ hpaeq)
        by_cases hxb : x = b
        · subst hxb
          rw [hg2b, hnb]
          exact congrArg some (hnode_parent_eta nb _ hpbeq)
        · rw [hg2fr x hxp hxa hxb, hg1fr x hxp hxa hxb]
      rw [hh2] at hx2
      exact ⟨h1, hx1, hx2⟩
    · obtain ⟨hb1, hb2, ha1, ha2⟩ :=
        nodup_decomp_facts t1 t2 t3 b a (hdec ▸ hnda)
      obtain ⟨h1, hx1, hg1p, hg1a, hg1b, hg1fr, hg1len⟩ :=
        exchange_char_same_ba h a b pa na nb pna t1 t2 t3 hna hpaeq hnb hpbeq
          hpna hka hdec ha1 ha2 hb1 hb2 hab hapa hbpa
      obtain ⟨h2, hx2, hg2p, hg2a, hg2b, hg2fr, hg2len⟩ :=
        exchange_char_same h1 a b pa
          { na with parent := some pa } { nb with parent := some pa }
          { pna with children := t1 ++ a :: t2 ++ b :: t3 } t1 t2 t3
          hg1a rfl hg1b rfl hg1p hka rfl
          ha1 ha2 hb1 hb2 hab hapa hbpa
      have hh2 : h2 = h := by
        apply heap_ext
        intro x
        by_cases hxp : x = pa
        · subst hxp
          rw [hg2p, hpna]
          exact congrArg some (hnode_children_eta pna _ hdec)
        by_cases hxa : x = a
        · subst hxa
          rw [hg2a, hna]
          exact congrArg some (hnode_parent_eta na _ hpaeq)
        by_cases hxb : x = b
        · subst hxb
          rw [hg2b, hnb]
          exact congrArg some (hnode_parent_eta nb _ hpbeq)
        · rw [hg2fr x hxp hxa hxb, hg1fr x hxp hxa hxb]
      rw [hh2] at hx2
      exact ⟨h1, hx1, hx2⟩
  · -- different parents
    have hbnpa : b ∉ pna.children := by
      intro hm
      obtain ⟨yd, hyd, hydp⟩ :=
        child_parent h none t pa pna hsp hpamem hpna b hm
      rw [hnb] at hyd
      injection hyd with hyd
      subst hyd
      rw [hpbeq] at hydp
      exact hpp (Option.some_inj.mp hydp).symm
    have hanpb : a ∉ pnb.children := by
      intro hm
      obtain ⟨yd, hyd, hydp⟩ :=
        child_parent h none t pb pnb hsp hpbmem hpnb a hm
      rw [hna] at hyd
      injection hyd with hyd
      subst hyd
      rw [hpaeq] at hydp
      exact hpp (Option.some_inj.mp hydp)
    obtain ⟨hdeca, hta⟩ := indexOf?_decomp a pna.children ia hia
    obtain ⟨hdecb, htb⟩ := indexOf?_decomp b pnb.children ib hib
    have hbt1 : b ∉ pna.children.take ia :=
      fun hm => hbnpa ((List.take_sublist ia pna.children).mem hm)
    have hau1 : a ∉ pnb.children.take ib :=
      fun hm => hanpb ((List.take_sublist ib pnb.children).mem hm)
    obtain ⟨h1, hx1, hg1pa, hg1pb, hg1a, hg1b, hg1fr, hg1len⟩ :=
      exchange_char_diff h a b pa pb na nb pna pnb
        (pna.children.take ia) (pna.children.drop (ia + 1))
        (pnb.children.take ib) (pnb.children.drop (ib + 1))
        hna hpaeq hpna hka hdeca hta
        hnb hpbeq hpnb hkb hdecb htb
        hab hapa hapb hbpa hbpb hpp
    obtain ⟨h2, hx2, hg2pb, hg2pa, hg2a, hg2b, hg2fr, hg2len⟩ :=
      exchange_char_diff h1 a b pb pa
        { na with parent := some pb } { nb with parent := some pa }
        { pnb with children :=
            pnb.children.take ib ++ a :: pnb.children.drop (ib + 1) }
        { pna with children :=
            pna.children.take ia ++ b :: pna.children.drop (ia + 1) }
        (pnb.children.take ib) (pnb.children.drop (ib + 1))
        (pna.children.take ia) (pna.children.drop (ia + 1))
        hg1a rfl hg1pb hkb rfl hau1
        hg1b rfl hg1pa hka rfl hbt1
        hab hapb hapa hbpb hbpa (Ne.symm hpp)
    have hh2 : h2 = h := by
      apply heap_ext
      intro x
      by_cases hxpa : x = pa
      · subst hxpa
        rw [hg2pa, hpna]
        exact congrArg some (hnode_children_eta pna _ hdeca)
      by_cases hxpb : x = pb
      · subst hxpb
        rw [hg2pb, hpnb]
        exact congrArg some (hnode_children_eta pnb _ hdecb)
      by_cases hxa : x = a
      · subst hxa
        rw [hg2a, hna]
        exact congrArg some (hnode_parent_eta na _ hpaeq)
      by_cases hxb : x = b
      · subst hxb
        rw [hg2b, hnb]
        exact congrArg some (hnode_parent_eta nb _ hpbeq)
      · rw [hg2fr x hxpb hxpa hxa hxb, hg1fr x hxpa hxpb hxa hxb]
    rw [hh2] at hx2
    exact ⟨h1, hx1, hx2⟩

end SocialNormsTrees

namespace SocialNormsTrees

theorem claim_C6_exchange_involutive_witness :
    WF [⟨.composite, "r", none, [1, 2]⟩, ⟨.leaf, "x", some 0, []⟩,
        ⟨.leaf, "y", some 0, []⟩] 0
      (.node 0 [.node 1 [], .node 2 []]) ∧
    (1 : Nat) ∈ (ITree.node 0 [.node 1 [], .node 2 []]).ids ∧
    (2 : Nat) ∈ (ITree.node 0 [.node 1 [], .node 2 []]).ids ∧
    ¬ descIn (.node 0 [.node 1 [], .node 2 []]) 1 2 ∧
    ¬ descIn (.node 0 [.node 1 [], .node 2 []]) 2 1 ∧
    (∃ h1, exchangeOp [⟨.composite, "r", none, [1, 2]⟩,
        ⟨.leaf, "x", some 0, []⟩, ⟨.leaf, "y", some 0, []⟩] 1 2 = .ok h1 ∧
      exchangeOp h1 1 2 = .ok [⟨.composite, "r", none, [1, 2]⟩,
        ⟨.leaf, "x", some 0, []⟩, ⟨.leaf, "y", some 0, []⟩]) := by
  have hn12 : ¬ descIn (.node 0 [.node 1 [], .node 2 []]) 1 2 := by
    rintro ⟨s, hs, hm⟩
    have he : (ITree.node 0 [.node 1 [], .node 2 []]).find 1 =
        some (.node 1 []) := rfl
    rw [he] at hs
    injection hs with hs
    subst hs
    revert hm
    decide
  have hn21 : ¬ descIn (.node 0 [.node 1 [], .node 2 []]) 2 1 := by
    rintro ⟨s, hs, hm⟩
    have he : (ITree.node 0 [.node 1 [], .node 2 []]).find 2 =
        some (.node 2 []) := rfl
    rw [he] at hs
    injection hs with hs
    subst hs
    revert hm
    decide
  refine ⟨⟨by decide, by decide, by decide⟩, by decide, by decide, hn12, hn21, ?_⟩
  exact claim_C6_exchange_involutive _ 0 _ 1 2
    ⟨by decide, by decide, by decide⟩ (by decide) (by decide) hn12 hn21

end SocialNormsTrees

namespace SocialNormsTrees

theorem pruneT_id (n : Nat) (t : ITree) : (pruneT n t).id = t.id := by
  cases t with
  | node i cs =>
      rw [pruneT.eq_def]
      rfl

theorem graftT_id (p i : Nat) (s : ITree) (t : ITree) :
    (graftT p i s t).id = t.id := by
  cases t with
  | node j cs =>
      rw [graftT.eq_def]
      simp only []
      by_cases hj : j = p
      · rw [if_pos hj]
        rfl
      · rw [if_neg hj]
        rfl

mutual

theorem pruneT_eq_of_not_mem : (t : ITree) → ∀ n, n ∉ t.ids → pruneT n t = t
  | .node i cs, n, hn => by
      rw [pruneT.eq_def]
      simp only []
      rw [pruneTList_eq_of_not_mem cs n (by
        rw [ids_cons] at hn
        simp only [List.mem_cons] at hn
        push_neg at hn
        exact hn.2)]

theorem pruneTList_eq_of_not_mem : (cs : List ITree) → ∀ n,
    n ∉ idsList cs → pruneTList n cs = cs
  | [], n, _ => by rw [pruneTList.eq_def]
  | c :: cs, n, hn => by
      rw [idsList_cons] at hn
      simp only [List.mem_append] at hn
      push_neg at hn
      rw [pruneTList.eq_def]
      simp only []
      rw [if_neg (by intro hh; exact hn.1 (hh ▸ id_mem_ids c)),
        pruneT_eq_of_not_mem c n hn.1, pruneTList_eq_of_not_mem cs n hn.2]

end

mutual

theorem graftT_eq_of_not_mem : (t : ITree) → ∀ p i s, p ∉ t.ids →
    graftT p i s t = t
  | .node j cs, p, i, s, hp => by
      rw [ids_cons] at hp
      simp only [List.mem_cons] at hp
      push_neg at hp
      rw [graftT.eq_def]
      simp only []
      rw [if_neg (Ne.symm hp.1), graftTList_eq_of_not_mem cs p i s hp.2]

theorem graftTList_eq_of_not_mem : (cs : List ITree) → ∀ p i s,
    p ∉ idsList cs → graftTList p i s cs = cs
  | [], p, i, s, _ => by rw [graftTList.eq_def]
  | c :: cs, p, i, s, hp => by
      rw [idsList_cons] at hp
      simp only [List.mem_append] at hp
      push_neg at hp
      rw [graftTList.eq_def]
      simp only []
      rw [graftT_eq_of_not_mem c p i s hp.1,
        graftTList_eq_of_not_mem cs p i s hp.2]

end

theorem mapId_pruneTList : (cs : List ITree) → ∀ n,
    n ∉ cs.map ITree.id → (pruneTList n cs).map ITree.id = cs.map ITree.id
  | [], n, _ => by rw [pruneTList.eq_def]
  | c :: cs, n, hn => by
      simp only [List.map_cons, List.mem_cons] at hn
      push_neg at hn
      rw [pruneTList.eq_def]
      simp only []
      rw [if_neg (fun hh => hn.1 hh.symm)]
      simp only [List.map_cons]
      rw [pruneT_id, mapId_pruneTList cs n hn.2]

theorem mapId_graftTList : (cs : List ITree) → ∀ p i s,
    (graftTList p i s cs).map ITree.id = cs.map ITree.id
  | [], p, i, s => by rw [graftTList.eq_def]
  | c :: cs, p, i, s => by
      rw [graftTList.eq_def]
      simp only [List.map_cons]
      rw [graftT_id, mapId_graftTList cs p i s]

theorem mapId_prune_erase : (cs : List ITree) → ∀ n,
    (cs.map ITree.id).Nodup →
    (cs.map ITree.id).erase n = (pruneTList n cs).map ITree.id
  | [], n, _ => by rw [pruneTList.eq_def]; rfl
  | c :: cs, n, hnd => by
      simp only [List.map_cons] at hnd ⊢
      rw [pruneTList.eq_def]
      simp only []
      by_cases hc : c.id = n
      · rw [if_pos hc, hc, List.erase_cons_head]
        exact (mapId_pruneTList cs n (hc ▸ (List.nodup_cons.mp hnd).1)).symm
      · rw [if_neg hc, List.erase_cons_tail (by simpa using hc)]
        simp only [List.map_cons]
        rw [pruneT_id, mapId_prune_erase cs n (List.nodup_cons.mp hnd).2]

end SocialNormsTrees

namespace SocialNormsTrees

theorem mapId_insertIdx : ∀ (i : Nat) (cs : List ITree) (s : ITree),
    (cs.insertIdx i s).map ITree.id = (cs.map ITree.id).insertIdx i s.id
  | 0, cs, s => by simp [List.insertIdx_zero]
  | i + 1, [], s => by simp [List.insertIdx_succ_nil]
  | i + 1, c :: cs, s => by
      simp only [List.insertIdx_succ_cons, List.map_cons]
      rw [mapId_insertIdx i cs s]

theorem idsList_insertIdx : ∀ (i : Nat) (cs : List ITree) (s : ITree),
    i ≤ cs.length →
    (idsList (cs.insertIdx i s)).Perm (idsList cs ++ s.ids)
  | 0, cs, s, _ => by
      rw [List.insertIdx_zero, idsList_cons]
      exact List.perm_append_comm
  | i + 1, [], s, h => by simp at h
  | i + 1, c :: cs, s, h => by
      rw [List.insertIdx_succ_cons, idsList_cons, idsList_cons]
      have hrec := (idsList_insertIdx i cs s (by simpa using h)).append_left c.ids
      rwa [← List.append_assoc] at hrec

theorem spansList_insertIdx_of : ∀ (i : Nat) (L : List ITree) (h3 : Heap)
    (j : Nat) (c : ITree), spansList h3 j L = true →
    spans h3 (some j) c = true → spansList h3 j (L.insertIdx i c) = true
  | 0, L, h3, j, c, hL, hc => by
      rw [List.insertIdx_zero, spansList.eq_def]
      simp only [Bool.and_eq_true]
      exact ⟨hc, hL⟩
  | i + 1, [], h3, j, c, hL, _ => by
      rw [List.insertIdx_succ_nil]
      exact hL
  | i + 1, x :: L, h3, j, c, hL, hc => by
      rw [spansList.eq_def] at hL
      simp only [Bool.and_eq_true] at hL
      rw [List.insertIdx_succ_cons, spansList.eq_def]
      simp only [Bool.and_eq_true]
      exact ⟨hL.1, spansList_insertIdx_of i L h3 j c hL.2 hc⟩

theorem spans_newparent (h h2 : Heap) (q q2 : Option Nat) (s : ITree)
    (rd : HNode) (hs : spans h q s = true) (hrd : getNode h s.id = some rd)
    (hr2 : getNode h2 s.id = some { rd with parent := q2 })
    (hfr : ∀ x, x ∈ idsList s.kids → getNode h2 x = getNode h x) :
    spans h2 q2 s = true := by
  cases s with
  | node i cs =>
      rw [spans.eq_def] at hs ⊢
      simp only [] at hs ⊢
      rw [show (ITree.node i cs).id = i from rfl] at hrd hr2
      rw [hrd] at hs
      rw [hr2]
      simp only [Bool.and_eq_true, beq_iff_eq] at hs ⊢
      refine ⟨⟨⟨trivial, hs.1.1.2⟩, ?_⟩, ?_⟩
      · simpa using hs.1.2
      · exact spansList_congr cs h h2 i hfr hs.2

theorem removeOp_inv (h : Heap) (n : Nat) (h2 : Heap) (m : Nat)
    (hok : removeOp h n = .ok (h2, m)) :
    ∃ nd p pn, getNode h n = some nd ∧ nd.parent = some p ∧
      getNode h p = some pn ∧ pn.kind = .composite ∧ m = n ∧
      h2 = setParent (setChildren h p (pn.children.erase n)) n none := by
  unfold removeOp at hok
  cases hnd : getNode h n with
  | none => rw [hnd] at hok; cases hok
  | some nd =>
      rw [hnd] at hok
      simp only [] at hok
      cases hp : nd.parent with
      | none => rw [hp] at hok; cases hok
      | some p =>
          rw [hp] at hok
          simp only [] at hok
          cases hpn : getNode h p with
          | none => rw [hpn] at hok; cases hok
          | some pn =>
              rw [hpn] at hok
              simp only [] at hok
              by_cases hk : pn.kind = .composite
              · rw [if_pos hk] at hok
                injection hok with hpair
                injection hpair with hh hm
                exact ⟨nd, p, pn, rfl, hp, hpn, hk, hm.symm, hh.symm⟩
              · rw [if_neg hk] at hok
                cases hok

theorem insertOp_inv (h : Heap) (n p i : Nat) (h2 : Heap)
    (hok : insertOp h n p i = .ok h2) :
    ∃ nd pn, getNode h n = some nd ∧ getNode h p = some pn ∧
      pn.kind = .composite ∧ i ≤ pn.children.length ∧
      h2 = setParent (setChildren h p (pn.children.insertIdx i n)) n (some p) := by
  unfold insertOp at hok
  cases hnd : getNode h n with
  | none => rw [hnd] at hok; cases hok
  | some nd =>
      rw [hnd] at hok
      simp only [] at hok
      cases hpn : getNode h p with
      | none => rw [hpn] at hok; cases hok
      | some pn =>
          rw [hpn] at hok
          simp only [] at hok
          by_cases hk : pn.kind = .composite
          · rw [if_pos hk] at hok
            by_cases hi : i ≤ pn.children.length
            · rw [if_pos hi] at hok
              injection hok with hh
              exact ⟨nd, pn, rfl, rfl, hk, hi, hh.symm⟩
            · rw [if_neg hi] at hok
              cases hok
          · rw [if_neg hk] at hok
            cases hok

theorem remove_surgery (h : Heap) (n p : Nat) (nd pn : HNode)
    (hn : getNode h n = some nd) (hpn : getNode h p = some pn) (hnp : n ≠ p) :
    getNode (setParent (setChildren h p (pn.children.erase n)) n none) p =
      some { pn with children := pn.children.erase n } ∧
    getNode (setParent (setChildren h p (pn.children.erase n)) n none) n =
      some { nd with parent := none } ∧
    (∀ x, x ≠ p → x ≠ n →
      getNode (setParent (setChildren h p (pn.children.erase n)) n none) x =
        getNode h x) := by
  refine ⟨?_, ?_, ?_⟩
  · rw [setParent_get_ne _ n p none (Ne.symm hnp)]
    exact setChildren_get_self h p _ pn hpn
  · exact setParent_get_self _ n none _
      (by rw [setChildren_get_ne h p n _ hnp]; exact hn)
  · intro x hxp hxn
    rw [setParent_get_ne _ n x none hxn, setChildren_get_ne h p x _ hxp]

theorem insert_surgery (h : Heap) (n p i : Nat) (nd pn : HNode)
    (hn : getNode h n = some nd) (hpn : getNode h p = some pn) (hnp : n ≠ p) :
    getNode (setParent (setChildren h p (pn.children.insertIdx i n)) n
        (some p)) p =
      some { pn with children := pn.children.insertIdx i n } ∧
    getNode (setParent (setChildren h p (pn.children.insertIdx i n)) n
        (some p)) n =
      some { nd with parent := some p } ∧
    (∀ x, x ≠ p → x ≠ n →
      getNode (setParent (setChildren h p (pn.children.insertIdx i n)) n
        (some p)) x = getNode h x) := by
  refine ⟨?_, ?_, ?_⟩
  · rw [setParent_get_ne _ n p _ (Ne.symm hnp)]
    exact setChildren_get_self h p _ pn hpn
  · exact setParent_get_self _ n (some p) _
      (by rw [setChildren_get_ne h p n _ hnp]; exact hn)
  · intro x hxp hxn
    rw [setParent_get_ne _ n x _ hxn, setChildren_get_ne h p x _ hxp]

end SocialNormsTrees

namespace SocialNormsTrees

mutual

theorem spans_prune : (u : ITree) → ∀ (h h2 : Heap) (q : Option Nat)
    (n p : Nat) (pn : HNode),
    spans h q u = true → u.ids.Nodup → u.id ≠ n →
    getNode h p = some pn → n ∈ pn.children →
    getNode h2 p = some { pn with children := pn.children.erase n } →
    (∀ x, x ≠ p → x ≠ n → getNode h2 x = getNode h x) →
    (∀ x xd, x ∈ u.ids → getNode h x = some xd → n ∈ xd.children → x = p) →
    spans h2 q (pruneT n u) = true
  | .node j cs, h, h2, q, n, p, pn, hs, hnd, hjn, hpn, hnin, hp2, hfr,
      hpar => by
      rw [spans.eq_def] at hs
      simp only [] at hs
      cases hjd : getNode h j with
      | none => rw [hjd] at hs; cases hs
      | some jd =>
          rw [hjd] at hs
          simp only [Bool.and_eq_true, Bool.or_eq_true, beq_iff_eq] at hs
          obtain ⟨⟨⟨hsp, hsc⟩, hsk⟩, hsl⟩ := hs
          have hndl : (idsList cs).Nodup := by
            rw [ids_cons] at hnd
            exact (List.nodup_cons.mp hnd).2
          have hparl : ∀ x xd, x ∈ idsList cs → getNode h x = some xd →
              n ∈ xd.children → x = p := by
            intro x xd hx
            exact hpar x xd (by rw [ids_cons]; exact List.mem_cons_of_mem _ hx)
          rw [pruneT.eq_def]
          simp only []
          rw [spans.eq_def]
          simp only []
          by_cases hjp : j = p
          · subst hjp
            have hjdpn : jd = pn := by
              have hx := hjd.symm.trans hpn
              injection hx
            subst hjdpn
            rw [hp2]
            simp only [Bool.and_eq_true, Bool.or_eq_true, beq_iff_eq]
            have hcsne : ¬ cs.isEmpty = true := by
              intro hk
              have hk2 : cs = [] := by simpa using hk
              subst hk2
              rw [hsc] at hnin
              cases hnin
            refine ⟨⟨⟨hsp, ?_⟩, ?_⟩, ?_⟩
            · show jd.children.erase n = (pruneTList n cs).map ITree.id
              rw [hsc]
              exact mapId_prune_erase cs n (hndl.sublist (mapId_sublist cs))
            · rcases hsk with hk | hk
              · exact Or.inl hk
              · exact absurd hk hcsne
            · exact spans_pruneList cs h h2 j n j jd hsl hndl hpn hnin hp2
                hfr hparl
          · have hnnotin : n ∉ jd.children := fun hm =>
              hjp (hpar j jd (by rw [ids_cons]; exact List.mem_cons_self _ _)
                hjd hm)
            rw [hfr j hjp hjn, hjd]
            simp only [Bool.and_eq_true, Bool.or_eq_true, beq_iff_eq]
            rw [hsc] at hnnotin
            refine ⟨⟨⟨hsp, ?_⟩, ?_⟩, ?_⟩
            · rw [hsc]
              exact (mapId_pruneTList cs n hnnotin).symm
            · rcases hsk with hk | hk
              · exact Or.inl hk
              · right
                have hk2 : cs = [] := by simpa using hk
                subst hk2
                rw [pruneTList.eq_def]
                rfl
            · exact spans_pruneList cs h h2 j n p pn hsl hndl hpn hnin hp2
                hfr hparl

theorem spans_pruneList : (cs : List ITree) → ∀ (h h2 : Heap) (i : Nat)
    (n p : Nat) (pn : HNode),
    spansList h i cs = true → (idsList cs).Nodup →
    getNode h p = some pn → n ∈ pn.children →
    getNode h2 p = some { pn with children := pn.children.erase n } →
    (∀ x, x ≠ p → x ≠ n → getNode h2 x = getNode h x) →
    (∀ x xd, x ∈ idsList cs → getNode h x = some xd → n ∈ xd.children →
      x = p) →
    spansList h2 i (pruneTList n cs) = true
  | [], h, h2, i, n, p, pn, _, _, _, _, _, _, _ => by
      rw [pruneTList.eq_def]
      rw [spansList.eq_def]
  | c :: cs, h, h2, i, n, p, pn, hsl, hnd, hpn, hnin, hp2, hfr, hpar => by
      rw [spansList.eq_def] at hsl
      simp only [Bool.and_eq_true] at hsl
      rw [idsList_cons] at hnd
      have hndc : c.ids.Nodup := (List.nodup_append.mp hnd).1
      have hndcs : (idsList cs).Nodup := (List.nodup_append.mp hnd).2.1
      have hparc : ∀ x xd, x ∈ c.ids → getNode h x = some xd →
          n ∈ xd.children → x = p := by
        intro x xd hx
        exact hpar x xd (by rw [idsList_cons]; exact List.mem_append_left _ hx)
      have hparcs : ∀ x xd, x ∈ idsList cs → getNode h x = some xd →
          n ∈ xd.children → x = p := by
        intro x xd hx
        exact hpar x xd
          (by rw [idsList_cons]; exact List.mem_append_right _ hx)
      rw [pruneTList.eq_def]
      simp only []
      by_cases hc : c.id = n
      · rw [if_pos hc]
        exact spans_pruneList cs h h2 i n p pn hsl.2 hndcs hpn hnin hp2 hfr
          hparcs
      · rw [if_neg hc]
        rw [spansList.eq_def]
        simp only [Bool.and_eq_true]
        exact ⟨spans_prune c h h2 (some i) n p pn hsl.1 hndc hc hpn hnin hp2
          hfr hparc,
          spans_pruneList cs h h2 i n p pn hsl.2 hndcs hpn hnin hp2 hfr
            hparcs⟩

end

end SocialNormsTrees

namespace SocialNormsTrees

mutual

theorem spans_graft : (u : ITree) → ∀ (h2 h3 : Heap) (q : Option Nat)
    (p i n : Nat) (pn2 : HNode) (s : ITree),
    spans h2 q u = true → u.ids.Nodup →
    (∀ x, x ∈ u.ids → x ∉ s.ids) → s.id = n →
    getNode h2 p = some pn2 → pn2.kind = .composite →
    getNode h3 p = some { pn2 with children := pn2.children.insertIdx i n } →
    spans h3 (some p) s = true →
    (∀ x, x ≠ p → x ≠ n → getNode h3 x = getNode h2 x) →
    spans h3 q (graftT p i s u) = true
  | .node j cs, h2, h3, q, p, i, n, pn2, s, hs, hnd, hfresh, hsid, hpn2,
      hk2, hp3, hss, hfr => by
      rw [spans.eq_def] at hs
      simp only [] at hs
      cases hjd : getNode h2 j with
      | none => rw [hjd] at hs; cases hs
      | some jd =>
          rw [hjd] at hs
          simp only [Bool.and_eq_true, Bool.or_eq_true, beq_iff_eq] at hs
          obtain ⟨⟨⟨hsp, hsc⟩, hsk⟩, hsl⟩ := hs
          have hndl : (idsList cs).Nodup := by
            rw [ids_cons] at hnd
            exact (List.nodup_cons.mp hnd).2
          have hfreshl : ∀ x, x ∈ idsList cs → x ∉ s.ids := by
            intro x hx
            exact hfresh x (by rw [ids_cons]; exact List.mem_cons_of_mem _ hx)
          rw [graftT.eq_def]
          simp only []
          by_cases hjp : j = p
          · subst hjp
            have hjdpn : jd = pn2 := by
              have hx := hjd.symm.trans hpn2
              injection hx
            subst hjdpn
            rw [if_pos rfl]
            rw [spans.eq_def]
            simp only []
            rw [hp3]
            simp only [Bool.and_eq_true, Bool.or_eq_true, beq_iff_eq]
            have hjnot : j ∉ idsList cs := by
              rw [ids_cons] at hnd
              exact (List.nodup_cons.mp hnd).1
            refine ⟨⟨⟨hsp, ?_⟩, Or.inl hk2⟩, ?_⟩
            · show jd.children.insertIdx i n = (cs.insertIdx i s).map ITree.id
              rw [mapId_insertIdx, hsid, hsc]
            · refine spansList_insertIdx_of i cs h3 j s ?_ hss
              refine spansList_congr cs h2 h3 j ?_ hsl
              intro x hx
              refine hfr x (fun hh => hjnot (hh ▸ hx)) ?_
              intro hh
              exact hfresh x
                (by rw [ids_cons]; exact List.mem_cons_of_mem _ hx)
                (hh ▸ hsid ▸ id_mem_ids s)
          · rw [if_neg hjp]
            rw [spans.eq_def]
            simp only []
            have hjn : j ≠ n := by
              intro hh
              exact hfresh j (by rw [ids_cons]; exact List.mem_cons_self _ _)
                (hh ▸ hsid ▸ id_mem_ids s)
            rw [hfr j hjp hjn, hjd]
            simp only [Bool.and_eq_true, Bool.or_eq_true, beq_iff_eq]
            refine ⟨⟨⟨hsp, ?_⟩, ?_⟩, ?_⟩
            · rw [hsc, mapId_graftTList]
            · rcases hsk with hk | hk
              · exact Or.inl hk
              · right
                have hk2e : cs = [] := by simpa using hk
                subst hk2e
                rw [graftTList.eq_def]
                rfl
            · exact spans_graftList cs h2 h3 j p i n pn2 s hsl hndl hfreshl
                hsid hpn2 hk2 hp3 hss hfr

theorem spans_graftList : (cs : List ITree) → ∀ (h2 h3 : Heap) (j : Nat)
    (p i n : Nat) (pn2 : HNode) (s : ITree),
    spansList h2 j cs = true → (idsList cs).Nodup →
    (∀ x, x ∈ idsList cs → x ∉ s.ids) → s.id = n →
    getNode h2 p = some pn2 → pn2.kind = .composite →
    getNode h3 p = some { pn2 with children := pn2.children.insertIdx i n } →
    spans h3 (some p) s = true →
    (∀ x, x ≠ p → x ≠ n → getNode h3 x = getNode h2 x) →
    spansList h3 j (graftTList p i s cs) = true
  | [], _, _, _, _, _, _, _, _, _, _, _, _, _, _, _, _, _ => by
      rw [graftTList.eq_def]
      rw [spansList.eq_def]
  | c :: cs, h2, h3, j, p, i, n, pn2, s, hsl, hnd, hfresh, hsid, hpn2, hk2,
      hp3, hss, hfr => by
      rw [spansList.eq_def] at hsl
      simp only [Bool.and_eq_true] at hsl
      rw [idsList_cons] at hnd
      rw [graftTList.eq_def]
      simp only []
      rw [spansList.eq_def]
      simp only [Bool.and_eq_true]
      refine ⟨?_, ?_⟩
      · exact spans_graft c h2 h3 (some j) p i n pn2 s hsl.1
          (List.nodup_append.mp hnd).1
          (fun x hx => hfresh x
            (by rw [idsList_cons]; exact List.mem_append_left _ hx))
          hsid hpn2 hk2 hp3 hss hfr
      · exact spans_graftList cs h2 h3 j p i n pn2 s hsl.2
          (List.nodup_append.mp hnd).2.1
          (fun x hx => hfresh x
            (by rw [idsList_cons]; exact List.mem_append_right _ hx))
          hsid hpn2 hk2 hp3 hss hfr

end

end SocialNormsTrees

namespace SocialNormsTrees

mutual

theorem pruneT_perm : (t : ITree) → ∀ (n : Nat) (sn : ITree),
    t.ids.Nodup → t.id ≠ n → t.find n = some sn →
    t.ids.Perm ((pruneT n t).ids ++ sn.ids)
  | .node j cs, n, sn, hnd, hjn, hf => by
      rw [ITree.find.eq_def] at hf
      simp only [] at hf
      rw [if_neg (show ¬ j = n from hjn)] at hf
      rw [pruneT.eq_def]
      simp only []
      rw [ids_cons, ids_cons, List.cons_append]
      have hndl : (idsList cs).Nodup := by
        rw [ids_cons] at hnd
        exact (List.nodup_cons.mp hnd).2
      exact (pruneTList_perm cs n sn hndl hf).cons j

theorem pruneTList_perm : (cs : List ITree) → ∀ (n : Nat) (sn : ITree),
    (idsList cs).Nodup → findList cs n = some sn →
    (idsList cs).Perm (idsList (pruneTList n cs) ++ sn.ids)
  | [], n, sn, _, hf => by
      rw [findList.eq_def] at hf
      cases hf
  | c :: cs, n, sn, hnd, hf => by
      rw [findList.eq_def] at hf
      simp only [] at hf
      rw [idsList_cons] at hnd
      have hdisj := (List.nodup_append.mp hnd).2.2
      have hndc := (List.nodup_append.mp hnd).1
      have hndcs := (List.nodup_append.mp hnd).2.1
      rw [pruneTList.eq_def]
      simp only []
      rw [idsList_cons]
      cases hcf : c.find n with
      | some s0 =>
          rw [hcf] at hf
          obtain rfl : s0 = sn := by injection hf
          have hnc : n ∈ c.ids := find_some_mem c n s0 hcf
          have hnotcs : n ∉ idsList cs := fun hm => hdisj hnc hm
          rw [pruneTList_eq_of_not_mem cs n hnotcs]
          by_cases hcid : c.id = n
          · rw [if_pos hcid]
            have hcfind : c.find n = some c := by
              cases c with
              | node j2 cs2 =>
                  rw [ITree.find.eq_def]
                  simp only []
                  rw [if_pos (show j2 = n from hcid)]
            have hsnc : s0 = c := by
              have hx := hcf.symm.trans hcfind
              injection hx
            subst hsnc
            exact List.perm_append_comm
          · rw [if_neg hcid]
            rw [idsList_cons]
            have hIH := (pruneT_perm c n s0 hndc hcid hcf).append_right
              (idsList cs)
            refine hIH.trans ?_
            rw [List.append_assoc, List.append_assoc]
            exact List.Perm.append_left _ List.perm_append_comm
      | none =>
          rw [hcf] at hf
          have hnotc : n ∉ c.ids := by
            intro hm
            obtain ⟨s2, hs2⟩ := mem_find_some c n hm
            rw [hs2] at hcf
            cases hcf
          rw [if_neg (by intro hh; exact hnotc (hh ▸ id_mem_ids c)),
            pruneT_eq_of_not_mem c n hnotc]
          rw [idsList_cons]
          have h1 := (pruneTList_perm cs n sn hndcs hf).append_left c.ids
          rwa [← List.append_assoc] at h1

end

mutual

theorem graftT_perm : (u : ITree) → ∀ (h2 : Heap) (q : Option Nat)
    (p i : Nat) (s : ITree) (pn2 : HNode),
    spans h2 q u = true → u.ids.Nodup → p ∈ u.ids →
    getNode h2 p = some pn2 → i ≤ pn2.children.length →
    (graftT p i s u).ids.Perm (u.ids ++ s.ids)
  | .node j cs, h2, q, p, i, s, pn2, hs, hnd, hp, hpn2, hlen => by
      rw [spans.eq_def] at hs
      simp only [] at hs
      cases hjd : getNode h2 j with
      | none => rw [hjd] at hs; cases hs
      | some jd =>
          rw [hjd] at hs
          simp only [Bool.and_eq_true, Bool.or_eq_true, beq_iff_eq] at hs
          obtain ⟨⟨⟨hsp, hsc⟩, hsk⟩, hsl⟩ := hs
          have hndl : (idsList cs).Nodup := by
            rw [ids_cons] at hnd
            exact (List.nodup_cons.mp hnd).2
          rw [graftT.eq_def]
          simp only []
          by_cases hjp : j = p
          · subst hjp
            have hjdpn : jd = pn2 := by
              have hx := hjd.symm.trans hpn2
              injection hx
            subst hjdpn
            rw [if_pos rfl]
            rw [ids_cons, ids_cons, List.cons_append]
            have hile : i ≤ cs.length := by
              rw [hsc] at hlen
              simpa using hlen
            exact (idsList_insertIdx i cs s hile).cons j
          · rw [if_neg hjp]
            rw [ids_cons, ids_cons, List.cons_append]
            have hpcs : p ∈ idsList cs := by
              rw [ids_cons] at hp
              rcases List.mem_cons.mp hp with rfl | hm
              · exact absurd rfl hjp
              · exact hm
            exact (graftTList_perm cs h2 j p i s pn2 hsl hndl hpcs hpn2
              hlen).cons j

theorem graftTList_perm : (cs : List ITree) → ∀ (h2 : Heap) (j : Nat)
    (p i : Nat) (s : ITree) (pn2 : HNode),
    spansList h2 j cs = true → (idsList cs).Nodup → p ∈ idsList cs →
    getNode h2 p = some pn2 → i ≤ pn2.children.length →
    (idsList (graftTList p i s cs)).Perm (idsList cs ++ s.ids)
  | [], _, _, _, _, _, _, _, _, hp, _, _ => by
      rw [idsList.eq_def] at hp
      cases hp
  | c :: cs, h2, j, p, i, s, pn2, hsl, hnd, hp, hpn2, hlen => by
      rw [spansList.eq_def] at hsl
      simp only [Bool.and_eq_true] at hsl
      rw [idsList_cons] at hnd hp
      have hdisj := (List.nodup_append.mp hnd).2.2
      rw [graftTList.eq_def]
      simp only []
      rw [idsList_cons, idsList_cons]
      rcases List.mem_append.mp hp with hpc | hpcs
      · have hnotcs : p ∉ idsList cs := fun hm => hdisj hpc hm
        rw [graftTList_eq_of_not_mem cs p i s hnotcs]
        have hIH := (graftT_perm c h2 (some j) p i s pn2 hsl.1
          (List.nodup_append.mp hnd).1 hpc hpn2 hlen).append_right
          (idsList cs)
        refine hIH.trans ?_
        rw [List.append_assoc, List.append_assoc]
        exact List.Perm.append_left _ List.perm_append_comm
      · have hnotc : p ∉ c.ids := fun hm => hdisj hm hpcs
        rw [graftT_eq_of_not_mem c p i s hnotc]
        have h1 := (graftTList_perm cs h2 j p i s pn2 hsl.2
          (List.nodup_append.mp hnd).2.1 hpcs hpn2 hlen).append_left c.ids
        rwa [← List.append_assoc] at h1

end

end SocialNormsTrees

namespace SocialNormsTrees

theorem removeOp_wf (h : Heap) (root n : Nat) (t : ITree)
    (hwf : WF h root t) (hn : n ∈ t.ids) (h2 : Heap) (m : Nat)
    (hok : removeOp h n = .ok (h2, m)) :
    ∃ sn, t.find n = some sn ∧ sn.id = n ∧ m = n ∧
      WF h2 root (pruneT n t) ∧
      spans h2 none sn = true ∧ sn.ids.Nodup ∧
      (∀ x, x ∈ sn.ids → x ∉ (pruneT n t).ids) ∧
      (∀ x, x ∈ t.ids → x ∈ (pruneT n t).ids ∨ x ∈ sn.ids) := by
  obtain ⟨hroot, hsp, hnd⟩ := hwf
  obtain ⟨nd, p, pn, hnd_get, hparent, hpn_get, hkind, hm, hh2⟩ :=
    removeOp_inv h n h2 m hok
  have hne : n ≠ t.id := by
    intro hh
    obtain ⟨rd, hrd, hrp, _, _⟩ := spans_root_entry h none t hsp
    rw [← hh] at hrd
    have hx := hnd_get.symm.trans hrd
    injection hx with hx
    rw [hx, hrp] at hparent
    cases hparent
  obtain ⟨px, nx, pnx, ix, sx, spx, hnx, hpx, hpxmem, hpnx, hkx, hix, hndx,
    hsubx, hfx, hsxid, hpxnsx, hfpx, hsubpx⟩ :=
    parentData t h none hsp hnd n hn hne
  have hnxnd : nd = nx := by
    have hx := hnd_get.symm.trans hnx
    injection hx
  subst hnxnd
  have hpxp : p = px := by
    have hx := hparent.symm.trans hpx
    injection hx
  subst hpxp
  have hpnxpn : pn = pnx := by
    have hx := hpn_get.symm.trans hpnx
    injection hx
  subst hpnxpn
  have hnp : n ≠ p := by
    intro hh
    exact hpxnsx (hh ▸ hsxid ▸ id_mem_ids sx)
  subst hh2
  obtain ⟨hd_p, hd_n, hd_fr⟩ := remove_surgery h n p nd pn hnd_get hpn_get hnp
  have hnin : n ∈ pn.children := mem_of_indexOf? n _ ix hix
  have hpar : ∀ x xd, x ∈ t.ids → getNode h x = some xd →
      n ∈ xd.children → x = p := by
    intro x xd hx hxd hnxd
    obtain ⟨yd, hyd, hydp⟩ := child_parent h none t x xd hsp hx hxd n hnxd
    have hyd2 := hyd.symm.trans hnd_get
    injection hyd2 with hyd2
    rw [hyd2] at hydp
    rw [hparent] at hydp
    exact (Option.some_inj.mp hydp).symm
  have hsprune := spans_prune t h _ none n p pn hsp hnd (Ne.symm hne)
    hpn_get hnin hd_p hd_fr hpar
  have hperm := pruneT_perm t n sx hnd (Ne.symm hne) hfx
  have hndall : ((pruneT n t).ids ++ sx.ids).Nodup := hperm.nodup_iff.mp hnd
  have hndsx : sx.ids.Nodup := hnd.sublist (find_ids_sublist t n sx hfx)
  obtain ⟨q2, hsxsp⟩ := find_spans t h none n sx hsp hfx
  have hsxroot : getNode h sx.id = some nd := by
    rw [hsxid]
    exact hnd_get
  have hsxsp2 := spans_newparent h _ q2 none sx nd hsxsp hsxroot
    (by rw [hsxid]; exact hd_n)
    (by
      intro x hx
      have hxmem : x ∈ sx.ids := (idsList_sublist_ids sx).mem hx
      refine hd_fr x (fun hh => hpxnsx (hh ▸ hxmem)) (fun hh => ?_)
      cases sx with
      | node a2 ks =>
          rw [ids_cons] at hndsx
          exact (List.nodup_cons.mp hndsx).1
            (by
              have ha2 : a2 = n := hsxid
              rw [ha2, ← hh]
              exact hx))
  refine ⟨sx, hfx, hsxid, hm, ⟨by rw [pruneT_id]; exact hroot, hsprune,
    (List.nodup_append.mp hndall).1⟩, hsxsp2, hndsx, ?_, ?_⟩
  · intro x hx hpx2
    exact (List.nodup_append.mp hndall).2.2 hpx2 hx
  · intro x hx
    exact List.mem_append.mp (hperm.mem_iff.mp hx)

theorem insertOp_wf (h : Heap) (root p i n : Nat) (t s : ITree)
    (qs : Option Nat) (hwf : WF h root t) (hss : spans h qs s = true)
    (hsnd : s.ids.Nodup) (hdisj : ∀ x, x ∈ t.ids → x ∉ s.ids)
    (hsid : s.id = n) (hp : p ∈ t.ids) (h2 : Heap)
    (hok : insertOp h n p i = .ok h2) :
    WF h2 root (graftT p i s t) ∧
    (∀ x, x ∈ t.ids → x ∈ (graftT p i s t).ids) ∧
    (∀ x, x ∈ s.ids → x ∈ (graftT p i s t).ids) := by
  obtain ⟨hroot, hsp, hnd⟩ := hwf
  obtain ⟨nd, pn, hnget, hpget, hk, hlen, hh2⟩ := insertOp_inv h n p i h2 hok
  subst hh2
  have hnp : n ≠ p := by
    intro hh
    exact hdisj p hp (hh ▸ hsid ▸ id_mem_ids s)
  obtain ⟨hd_p, hd_n, hd_fr⟩ := insert_surgery h n p i nd pn hnget hpget hnp
  have hsroot : getNode h s.id = some nd := by
    rw [hsid]
    exact hnget
  have hss2 := spans_newparent h _ qs (some p) s nd hss hsroot
    (by rw [hsid]; exact hd_n)
    (by
      intro x hx
      have hxmem : x ∈ s.ids := (idsList_sublist_ids s).mem hx
      refine hd_fr x (fun hh => hdisj p hp (hh ▸ hxmem)) (fun hh => ?_)
      cases s with
      | node a2 ks =>
          rw [ids_cons] at hsnd
          exact (List.nodup_cons.mp hsnd).1
            (by
              have ha2 : a2 = n := hsid
              rw [ha2, ← hh]
              exact hx))
  have hgraft := spans_graft t h _ none p i n pn s hsp hnd hdisj hsid hpget
    hk hd_p hss2 hd_fr
  have hperm := graftT_perm t h none p i s pn hsp hnd hp hpget hlen
  have hndapp : (t.ids ++ s.ids).Nodup :=
    List.nodup_append.mpr ⟨hnd, hsnd, fun a ha hb => hdisj a ha hb⟩
  have hndg : (graftT p i s t).ids.Nodup := hperm.nodup_iff.mpr hndapp
  refine ⟨⟨by rw [graftT_id]; exact hroot, hgraft, hndg⟩, ?_, ?_⟩
  · intro x hx
    exact hperm.mem_iff.mpr (List.mem_append_left _ hx)
  · intro x hx
    exact hperm.mem_iff.mpr (List.mem_append_right _ hx)

theorem moveOp_wf (h : Heap) (root n c i : Nat) (t : ITree)
    (hwf : WF h root t) (hn : n ∈ t.ids) (hc : c ∈ t.ids)
    (h4 : Heap) (hok : moveOp h n c i = .ok h4) :
    ∃ t2, WF h4 root t2 ∧
      (∀ x, x ∈ t.ids → (∀ sn, t.find n = some sn → x ∉ sn.ids) →
        x ∈ t2.ids) := by
  unfold moveOp at hok
  cases hrem : removeOp h n with
  | error e =>
      rw [hrem] at hok
      cases hok
  | ok pr =>
      obtain ⟨h2, m⟩ := pr
      rw [hrem] at hok
      simp only [] at hok
      obtain ⟨sn, hfind, hsnid, hm, hwf2, hsnsp, hsnnd, hdisj2, hmem2⟩ :=
        removeOp_wf h root n t hwf hn h2 m hrem
      have hm2 : n = m := hm.symm
      subst hm2
      by_cases hcs : c ∈ sn.ids
      · obtain ⟨nd2, pn2, hng2, hcg2, hk2, hlen2, hh4⟩ :=
          insertOp_inv h2 n c i h4 hok
        subst hh4
        have hfr : ∀ x, x ≠ c → x ≠ n →
            getNode (setParent (setChildren h2 c
              (pn2.children.insertIdx i n)) n (some c)) x = getNode h2 x := by
          intro x hxc hxn
          rw [setParent_get_ne _ n x _ hxn, setChildren_get_ne h2 c x _ hxc]
        obtain ⟨hro2, hsp2, hnd2p⟩ := hwf2
        have hnins : n ∈ sn.ids := hsnid ▸ id_mem_ids sn
        refine ⟨pruneT n t, ⟨hro2, spans_congr _ h2 _ none ?_ hsp2, hnd2p⟩,
          ?_⟩
        · intro x hx
          exact hfr x (fun hh => hdisj2 c hcs (hh ▸ hx))
            (fun hh => hdisj2 n hnins (hh ▸ hx))
        · intro x hx hnsub
          have hxnot : x ∉ sn.ids := hnsub sn hfind
          rcases hmem2 x hx with h1 | h1
          · exact h1
          · exact absurd h1 hxnot
      · have hcp : c ∈ (pruneT n t).ids := by
          rcases hmem2 c hc with h1 | h1
          · exact h1
          · exact absurd h1 hcs
        have hdisj3 : ∀ x, x ∈ (pruneT n t).ids → x ∉ sn.ids :=
          fun x hx hsx => hdisj2 x hsx hx
        obtain ⟨hwf4, hmemt, hmems⟩ := insertOp_wf h2 root c i n (pruneT n t)
          sn none hwf2 hsnsp hsnnd hdisj3 hsnid hcp h4 hok
        refine ⟨graftT c i sn (pruneT n t), hwf4, ?_⟩
        intro x hx hnsub
        have hxnot : x ∉ sn.ids := hnsub sn hfind
        rcases hmem2 x hx with h1 | h1
        · exact hmemt x h1
        · exact absurd h1 hxnot

end SocialNormsTrees

namespace SocialNormsTrees

/-- C2: each of the four atomic mutations, called on a heap realising a
well-formed tree (certified by a spanning tree: unique parentless root,
parent/children consistency, childless leaves, every node reachable exactly
once) with its node arguments taken from that tree — the inserted node being
the root of a detached subtree disjoint from it, and the exchanged pair
having neither node an ancestor of the other — yields, on success, a heap
realising a well-formed tree at the same root. -/
theorem claim_C2_mutations_preserve_invariants :
    (∀ (h : Heap) (root n : Nat) (t : ITree) (h2 : Heap) (m : Nat),
      WF h root t → n ∈ t.ids → removeOp h n = .ok (h2, m) →
      ∃ t2, WF h2 root t2) ∧
    (∀ (h : Heap) (root p i n : Nat) (t s : ITree) (qs : Option Nat)
      (h2 : Heap),
      WF h root t → spans h qs s = true → s.ids.Nodup →
      (∀ x, x ∈ t.ids → x ∉ s.ids) → s.id = n → p ∈ t.ids →
      insertOp h n p i = .ok h2 → ∃ t2, WF h2 root t2) ∧
    (∀ (h : Heap) (root n c i : Nat) (t : ITree) (h4 : Heap),
      WF h root t → n ∈ t.ids → c ∈ t.ids → moveOp h n c i = .ok h4 →
      ∃ t2, WF h4 root t2) ∧
    (∀ (h : Heap) (root a b : Nat) (t : ITree) (h4 : Heap),
      WF h root t → a ∈ t.ids → b ∈ t.ids →
      ¬ descIn t a b → ¬ descIn t b a →
      exchangeOp h a b = .ok h4 → ∃ t2, WF h4 root t2) := by
  refine ⟨?_, ?_, ?_, ?_⟩
  · intro h root n t h2 m hwf hn hok
    obtain ⟨sn, _, _, _, hwf2, _, _, _, _⟩ :=
      removeOp_wf h root n t hwf hn h2 m hok
    exact ⟨pruneT n t, hwf2⟩
  · intro h root p i n t s qs h2 hwf hss hsnd hdisj hsid hp hok
    exact ⟨graftT p i s t,
      (insertOp_wf h root p i n t s qs hwf hss hsnd hdisj hsid hp h2 hok).1⟩
  · intro h root n c i t h4 hwf hn hc hok
    obtain ⟨t2, hwf2, _⟩ := moveOp_wf h root n c i t hwf hn hc h4 hok
    exact ⟨t2, hwf2⟩
  · intro h root a b t h4 hwf ha hb hnab hnba hok
    obtain ⟨hroot, hsp, hnd⟩ := hwf
    have hat : a ≠ t.id := by
      rintro rfl
      exact hnab ⟨t, find_self t, hb⟩
    have hbt : b ≠ t.id := by
      rintro rfl
      exact hnba ⟨t, find_self t, ha⟩
    obtain ⟨pa, na, pna, ia, sa, spa, hna, hpaeq, hpamem, hpna, hka, hia,
      hnda, hsuba, hfa, hsaid, hpansa, hfpa, hsubpa⟩ :=
      parentData t h none hsp hnd a ha hat
    obtain ⟨pb, nb, pnb, ib, sb, spb, hnb, hpbeq, hpbmem, hpnb, hkb, hib,
      hndb, hsubb, hfb, hsbid, hpbnsb, hfpb, hsubpb⟩ :=
      parentData t h none hsp hnd b hb hbt
    rw [exchangeOp_eq h a b pa pb ia ib na nb pna pnb hna hpaeq hpna hia
      hnb hpbeq hpnb hib] at hok
    cases hmv1 : moveOp h a pb ib with
    | error e =>
        rw [hmv1] at hok
        cases hok
    | ok h2 =>
        rw [hmv1] at hok
        simp only [Except.bind] at hok
        obtain ⟨t2, hwf2, hmem2⟩ := moveOp_wf h root a pb ib t
          ⟨hroot, hsp, hnd⟩ ha hpbmem h2 hmv1
        have hbt2 : b ∈ t2.ids := hmem2 b hb
          (fun sn hf hbs => hnab ⟨sn, hf, hbs⟩)
        have hpat2 : pa ∈ t2.ids := hmem2 pa hpamem
          (by
            intro sn hf hps
            have hsn : sa = sn := by
              have hx := hfa.symm.trans hf
              injection hx
            exact hpansa (hsn ▸ hps))
        obtain ⟨t3, hwf3, _⟩ := moveOp_wf h2 root b pa ia t2 hwf2 hbt2
          hpat2 h4 hok
        exact ⟨t3, hwf3⟩

end SocialNormsTrees

namespace SocialNormsTrees

theorem claim_C2_mutations_preserve_invariants_witness :
    WF [⟨.composite, "r", none, [1, 2]⟩, ⟨.leaf, "u", some 0, []⟩,
        ⟨.leaf, "v", some 0, []⟩, ⟨.leaf, "w", none, []⟩] 0
      (.node 0 [.node 1 [], .node 2 []]) ∧
    (∃ t2, WF [⟨.composite, "r", none, [2]⟩, ⟨.leaf, "u", none, []⟩,
        ⟨.leaf, "v", some 0, []⟩, ⟨.leaf, "w", none, []⟩] 0 t2) ∧
    (∃ t2, WF [⟨.composite, "r", none, [1, 2, 3]⟩, ⟨.leaf, "u", some 0, []⟩,
        ⟨.leaf, "v", some 0, []⟩, ⟨.leaf, "w", some 0, []⟩] 0 t2) ∧
    (∃ t2, WF [⟨.composite, "r", none, [2, 1]⟩, ⟨.leaf, "u", some 0, []⟩,
        ⟨.leaf, "v", some 0, []⟩, ⟨.leaf, "w", none, []⟩] 0 t2) ∧
    (∃ t2, WF [⟨.composite, "r", none, [2, 1]⟩, ⟨.leaf, "u", some 0, []⟩,
        ⟨.leaf, "v", some 0, []⟩, ⟨.leaf, "w", none, []⟩] 0 t2) := by
  refine ⟨⟨by decide, by decide, by decide⟩, ?_, ?_, ?_, ?_⟩
  · exact claim_C2_mutations_preserve_invariants.1
      [⟨.composite, "r", none, [1, 2]⟩, ⟨.leaf, "u", some 0, []⟩,
        ⟨.leaf, "v", some 0, []⟩, ⟨.leaf, "w", none, []⟩] 0 1
      (.node 0 [.node 1 [], .node 2 []]) _ 1
      ⟨by decide, by decide, by decide⟩ (by decide) rfl
  · exact claim_C2_mutations_preserve_invariants.2.1
      [⟨.composite, "r", none, [1, 2]⟩, ⟨.leaf, "u", some 0, []⟩,
        ⟨.leaf, "v", some 0, []⟩, ⟨.leaf, "w", none, []⟩] 0 0 2 3
      (.node 0 [.node 1 [], .node 2 []]) (.node 3 []) none _
      ⟨by decide, by decide, by decide⟩ (by decide) (by decide)
      (by decide) rfl (by decide) rfl
  · exact claim_C2_mutations_preserve_invariants.2.2.1
      [⟨.composite, "r", none, [1, 2]⟩, ⟨.leaf, "u", some 0, []⟩,
        ⟨.leaf, "v", some 0, []⟩, ⟨.leaf, "w", none, []⟩] 0 1 0 1
      (.node 0 [.node 1 [], .node 2 []]) _
      ⟨by decide, by decide, by decide⟩ (by decide) (by decide) rfl
  · refine claim_C2_mutations_preserve_invariants.2.2.2
      [⟨.composite, "r", none, [1, 2]⟩, ⟨.leaf, "u", some 0, []⟩,
        ⟨.leaf, "v", some 0, []⟩, ⟨.leaf, "w", none, []⟩] 0 1 2
      (.node 0 [.node 1 [], .node 2 []]) _
      ⟨by decide, by decide, by decide⟩ (by decide) (by decide) ?_ ?_ rfl
    · rintro ⟨s, hs, hm⟩
      have he : (ITree.node 0 [.node 1 [], .node 2 []]).find 1 =
          some (.node 1 []) := rfl
      rw [he] at hs
      injection hs with hs
      subst hs
      revert hm
      decide
    · rintro ⟨s, hs, hm⟩
      have he : (ITree.node 0 [.node 1 [], .node 2 []]).find 2 =
          some (.node 2 []) := rfl
      rw [he] at hs
      injection hs with hs
      subst hs
      revert hm
      decide

end SocialNormsTrees
